import Mathlib

/-!
# Verification of the threshold Paillier implementation

A shallow embedding of the threshold Paillier cryptosystem implementation
(`paillier.go`, `thresholdkey.go`, `thresholdkey_generator.go`, `utils.go`)
together with proofs of the specification claims about it.

Big integers (`gmp.Int`) holding protocol values are modelled as `ℕ`;
quantities that can be negative (server IDs used in Lagrange coefficients,
the Lagrange coefficients themselves) are modelled as `ℤ`.  `Div`/`Mod` on
Go big integers is Euclidean division, which matches `Int.ediv`/`Int.emod`.
`ModInverse` is modelled as a partial function (`Option ℕ`): `none` models
the failure case in which no modular inverse exists.  The SHA-256 based
Fiat–Shamir hash is modelled as an abstract function `H` of the four
integers being hashed (the byte serialisation performed by the code is a
function of those integers, so any property proved for every `H` holds for
the concrete hash).
-/

namespace Paillier

/-- `Factorial n` mirrors `Factorial` in `utils.go`:
`ret := 1; for i := 1; i <= n; i++ { ret = ret * i }`. -/
def Factorial (n : ℕ) : ℕ :=
  (List.range n).foldl (fun r i => r * (i + 1)) 1

theorem Factorial_eq_factorial (n : ℕ) : Factorial n = Nat.factorial n := by
  have h : ∀ (n : ℕ) (a : ℕ),
      (List.range n).foldl (fun r i => r * (i + 1)) a = a * Nat.factorial n := by
    intro n
    induction n with
    | zero => intro a; simp [Nat.factorial]
    | succ k ih =>
        intro a
        rw [List.range_succ, List.foldl_append]
        simp only [List.foldl_cons, List.foldl_nil, ih]
        rw [Nat.factorial_succ]
        ring
  simpa [Factorial] using h n 1

/-- Model of `gmp.Int.ModInverse(a, n)`: the inverse of `a` modulo `n` when it
exists, `none` when `a` is not invertible modulo `n`. -/
def modInverse (a n : ℕ) : Option ℕ :=
  (List.range n).find? (fun x => a * x % n == 1 % n)

theorem modInverse_spec {a n x : ℕ} (h : modInverse a n = some x) :
    x < n ∧ a * x % n = 1 % n := by
  unfold modInverse at h
  have hmem := List.mem_of_find?_eq_some h
  have hp := List.find?_some h
  refine ⟨List.mem_range.mp hmem, ?_⟩
  simpa using hp

theorem modInverse_unique {n y w z : ℕ} (hw : w < n) (hz : z < n)
    (hw1 : y * w % n = 1 % n) (hz1 : y * z % n = 1 % n) : w = z := by
  have h1 : (y * w) % n = 1 % n := hw1
  have h2 : (y * z) % n = 1 % n := hz1
  have hmod : w % n = z % n := by
    have c1 : (w * (y * z)) % n = (w * 1) % n := by
      conv_lhs => rw [Nat.mul_mod, h2, ← Nat.mul_mod]
    have c2 : (z * (y * w)) % n = (z * 1) % n := by
      conv_lhs => rw [Nat.mul_mod, h1, ← Nat.mul_mod]
    have hx : w * (y * z) = z * (y * w) := by ring
    rw [hx] at c1
    rw [Nat.mul_one] at c1 c2
    omega
  rwa [Nat.mod_eq_of_lt hw, Nat.mod_eq_of_lt hz] at hmod

theorem modInverse_eq_some {a n z : ℕ} (hz : z < n) (h : a * z % n = 1 % n) :
    modInverse a n = some z := by
  unfold modInverse
  have hiss : ((List.range n).find? (fun x => a * x % n == 1 % n)).isSome := by
    refine List.find?_isSome.mpr ⟨z, List.mem_range.mpr hz, by simpa using h⟩
  obtain ⟨w, hw⟩ := Option.isSome_iff_exists.mp hiss
  have hwmem := List.mem_of_find?_eq_some hw
  have hwp : a * w % n = 1 % n := by simpa using List.find?_some hw
  rw [hw]
  exact congrArg some (modInverse_unique (List.mem_range.mp hwmem) hz hwp h)

theorem modInverse_eq_none {a n : ℕ} :
    modInverse a n = none ↔ ∀ z < n, a * z % n ≠ 1 % n := by
  unfold modInverse
  rw [List.find?_eq_none]
  constructor
  · intro h z hz hmod
    exact h z (List.mem_range.mpr hz) (by simpa using hmod)
  · intro h z hz hp
    exact h z (List.mem_range.mp hz) (by simpa using hp)

/-- An inverse exists whenever `a` is coprime to the (positive) modulus. -/
theorem modInverse_isSome_of_coprime {a n : ℕ} (hn : 0 < n)
    (h : Nat.Coprime a n) : ∃ z, modInverse a n = some z ∧ a * z % n = 1 % n := by
  rcases Nat.lt_or_ge n 2 with h1 | h1
  · have hn1 : n = 1 := by omega
    subst hn1
    exact ⟨0, modInverse_eq_some (by omega) (by omega), by omega⟩
  · haveI : NeZero n := ⟨by omega⟩
    have hu : IsUnit (a : ZMod n) := (ZMod.isUnit_iff_coprime a n).mpr h
    set z : ℕ := ((hu.unit⁻¹ : (ZMod n)ˣ) : ZMod n).val with hzdef
    have hzlt : z < n := ZMod.val_lt _
    have hmul : (a : ZMod n) * ((hu.unit⁻¹ : (ZMod n)ˣ) : ZMod n) = 1 := by
      have h2 := hu.unit.mul_inv
      rwa [hu.unit_spec] at h2
    have hcast : ((a * z : ℕ) : ZMod n) = ((1 : ℕ) : ZMod n) := by
      push_cast
      rw [ZMod.natCast_val, ZMod.cast_id]
      simp [hmul]
    have hmod : a * z % n = 1 % n := (ZMod.natCast_eq_natCast_iff _ _ _).mp hcast
    exact ⟨z, modInverse_eq_some hzlt hmod, hmod⟩

/-- The `l` helper of `paillier.go`: `l(u, n) = (u - 1) / n` with Euclidean
division (`gmp.Int.Div`). -/
def lFun (u n : ℤ) : ℤ := (u - 1) / n

/-! ## Data model (`thresholdkey.go`) -/

/-- `PartialDecryption`: a partially decrypted ciphertext tagged with the
ID of the decryption server that produced it. -/
structure PartialDecryption where
  ID : ℤ
  Decryption : ℕ
deriving DecidableEq, Repr

instance : Inhabited PartialDecryption := ⟨⟨0, 0⟩⟩

/-- `ThresholdPublicKey` (the embedded base `PublicKey` is flattened into the
field `N`; its `G`/cache fields are derived values never read by the
threshold code paths modelled here). -/
structure ThresholdPublicKey where
  N : ℕ
  TotalNumberOfDecryptionServers : ℕ
  Threshold : ℕ
  VerificationKey : ℕ
  VerificationKeys : List ℕ
deriving DecidableEq, Repr

instance : Inhabited ThresholdPublicKey := ⟨⟨0, 0, 0, 0, []⟩⟩

/-- `ThresholdSecretKey` extends the public key with the server `ID` and the
secret `Share`. -/
structure ThresholdSecretKey extends ThresholdPublicKey where
  ID : ℤ
  Share : ℕ
deriving DecidableEq, Repr

instance : Inhabited ThresholdSecretKey := ⟨⟨default, 0, 0⟩⟩

/-- `PublicKey.GetN2`. -/
def ThresholdPublicKey.GetN2 (tk : ThresholdPublicKey) : ℕ := tk.N * tk.N

/-- `ThresholdPublicKey.delta`: the factorial of the number of decryption
servers. -/
def ThresholdPublicKey.delta (tk : ThresholdPublicKey) : ℕ :=
  Factorial tk.TotalNumberOfDecryptionServers

/-- `combineSharesConstant`: `(4·Δ²)⁻¹ mod N`. -/
def ThresholdPublicKey.combineSharesConstant (tk : ThresholdPublicKey) : Option ℕ :=
  modInverse (4 * (tk.delta * tk.delta)) tk.N

/-- Error values returned by `verifyPartialDecryptions`. -/
inductive CombineError where
  | thresholdNotMet
  | duplicateShare
deriving DecidableEq, Repr

/-- `verifyPartialDecryptions`: reject when fewer shares than the threshold
were supplied, then reject when two shares carry the same server ID.  The
number of distinct IDs (the size of the Go map `tmp`) is the length of
`(shares.map ID).dedup`. -/
def ThresholdPublicKey.verifyPartialDecryptions (tk : ThresholdPublicKey)
    (shares : List PartialDecryption) : Option CombineError :=
  if shares.length < tk.Threshold then some .thresholdNotMet
  else if (shares.map (fun s => s.ID)).dedup.length ≠ shares.length then
    some .duplicateShare
  else none

/-- `updateLambda`: `λ ← (λ · (−ID₂)) / (ID₁ − ID₂)` with Euclidean division. -/
def ThresholdPublicKey.updateLambda (_tk : ThresholdPublicKey)
    (share1 share2 : PartialDecryption) (lambda : ℤ) : ℤ :=
  lambda * (-share2.ID) / (share1.ID - share2.ID)

/-- `computeLambda`: fold `updateLambda` over all other shares, starting
from `Δ`. -/
def ThresholdPublicKey.computeLambda (tk : ThresholdPublicKey)
    (share : PartialDecryption) (shares : List PartialDecryption) : ℤ :=
  shares.foldl
    (fun lambda share2 =>
      if share2.ID ≠ share.ID then tk.updateLambda share share2 lambda else lambda)
    (tk.delta : ℤ)

/-- `exp`: modular exponentiation with a signed exponent.  For a negative
exponent the modular inverse of `a^{|b|} mod c` is taken; `none` models the
failure case in which that inverse does not exist. -/
def ThresholdPublicKey.exp (_tk : ThresholdPublicKey) (a : ℕ) (b : ℤ) (c : ℕ) :
    Option ℕ :=
  if b < 0 then modInverse (a ^ (-b).toNat % c) c
  else some (a ^ b.toNat % c)

/-- `updateCprime`: multiply the accumulator by `share.Decryption^{2λ} mod n²`. -/
def ThresholdPublicKey.updateCprime (tk : ThresholdPublicKey) (cprime : ℕ)
    (lambda : ℤ) (share : PartialDecryption) : Option ℕ :=
  (tk.exp share.Decryption (2 * lambda) tk.GetN2).map
    (fun r => cprime * r % tk.GetN2)

/-- `computeDecryption`: the final step
`(combineSharesConstant · l(cprime, N)) mod N`. -/
def ThresholdPublicKey.computeDecryption (tk : ThresholdPublicKey) (cprime : ℕ) :
    Option ℕ :=
  tk.combineSharesConstant.map
    (fun csc => (((csc : ℤ) * lFun (cprime : ℤ) (tk.N : ℤ)) % (tk.N : ℤ)).toNat)

/-- `CombinePartialDecryptions`: verify the share list, fold `updateCprime`
over it (computing each share's Lagrange parameter from the full list),
then run `computeDecryption`. -/
def ThresholdPublicKey.CombinePartialDecryptions (tk : ThresholdPublicKey)
    (shares : List PartialDecryption) : Except CombineError (Option ℕ) :=
  match tk.verifyPartialDecryptions shares with
  | some e => .error e
  | none =>
      .ok (((shares.foldl
          (fun cp share =>
            cp.bind (fun c => tk.updateCprime c (tk.computeLambda share shares) share))
          (some 1))).bind tk.computeDecryption)

/-- `ThresholdSecretKey.PartialDecrypt`: `cᵢ = c^{2·Δ·sᵢ} mod n²` tagged with
the server ID. -/
def ThresholdSecretKey.PartialDecrypt (tsk : ThresholdSecretKey) (c : ℕ) :
    PartialDecryption :=
  { ID := tsk.ID
    Decryption := c ^ (tsk.Share * (2 * tsk.toThresholdPublicKey.delta)) %
      tsk.toThresholdPublicKey.GetN2 }

/-- `copyVerificationKeys` / `PublicKey` on `ThresholdSecretKey`, value level:
the returned public key carries the same numbers (the aliasing behaviour is
modelled separately by the store-based functions below). -/
def ThresholdSecretKey.PublicKey (tsk : ThresholdSecretKey) : ThresholdPublicKey :=
  { N := tsk.N
    TotalNumberOfDecryptionServers := tsk.TotalNumberOfDecryptionServers
    Threshold := tsk.Threshold
    VerificationKey := tsk.VerificationKey
    VerificationKeys := tsk.VerificationKeys }

/-! ## Zero-knowledge proofs of correct partial decryption -/

/-- `PartialDecryptionZKP`. -/
structure PartialDecryptionZKP where
  ID : ℤ
  Decryption : ℕ
  Key : ThresholdPublicKey
  E : ℕ
  Z : ℕ
  C : ℕ
deriving DecidableEq, Repr

/-- The plain `PartialDecryption` embedded in a `PartialDecryptionZKP`
(`share.PartialDecryption` in Go). -/
def PartialDecryptionZKP.toPartialDecryption (pd : PartialDecryptionZKP) :
    PartialDecryption :=
  { ID := pd.ID, Decryption := pd.Decryption }

/-- A Go slice read `l[i]` with an `int` index: defined exactly when
`0 ≤ i < len(l)`; `none` models the out-of-range panic. -/
def listGetZ (l : List ℕ) (i : ℤ) : Option ℕ :=
  if 0 ≤ i then l.get? i.toNat else none

/-- `verifyPart1`: `a = (c⁴)^Z · ((cᵢ²)^E)⁻¹ mod n²`. -/
def PartialDecryptionZKP.verifyPart1 (pd : PartialDecryptionZKP) : Option ℕ :=
  (modInverse ((pd.Decryption ^ 2) ^ pd.E % pd.Key.GetN2) pd.Key.GetN2).map
    (fun a2 => (pd.C ^ 4) ^ pd.Z % pd.Key.GetN2 * a2 % pd.Key.GetN2)

/-- `verifyPart2`: `b = V^Z · (vᵢ)^{−E} mod n²`, reading
`VerificationKeys[ID-1]` with no bounds check. -/
def PartialDecryptionZKP.verifyPart2 (pd : PartialDecryptionZKP) : Option ℕ :=
  (listGetZ pd.Key.VerificationKeys (pd.ID - 1)).bind (fun vi =>
    (modInverse (vi ^ pd.E % pd.Key.GetN2) pd.Key.GetN2).map
      (fun b2 => pd.Key.VerificationKey ^ pd.Z % pd.Key.GetN2 * b2 % pd.Key.GetN2))

/-- `VerifyProof`, parametrised by the Fiat–Shamir hash `H` (a function of
the four hashed integers `a`, `b`, `c⁴`, `cᵢ²`). -/
def PartialDecryptionZKP.VerifyProof (H : ℕ → ℕ → ℕ → ℕ → ℕ)
    (pd : PartialDecryptionZKP) : Option Bool :=
  (pd.verifyPart1).bind (fun a =>
    (pd.verifyPart2).map (fun b =>
      pd.E == H a b (pd.C ^ 4) (pd.Decryption ^ 2)))

/-- `computeZ`: `Z = r + (e·Δ)·s` over the unreduced integers. -/
def ThresholdSecretKey.computeZ (tsk : ThresholdSecretKey) (r e : ℕ) : ℕ :=
  r + e * tsk.toThresholdPublicKey.delta * tsk.Share

/-- `PartialDecryptionWithZKP`, with the random nonce `r` (sampled from
`[0, n²)` in the code) and the hash `H` as parameters. -/
def ThresholdSecretKey.PartialDecryptionWithZKP (H : ℕ → ℕ → ℕ → ℕ → ℕ)
    (tsk : ThresholdSecretKey) (c r : ℕ) : PartialDecryptionZKP :=
  let n2 := tsk.toThresholdPublicKey.GetN2
  let dec := (tsk.PartialDecrypt c).Decryption
  let a := (c ^ 4) ^ r % n2
  let b := tsk.VerificationKey ^ r % n2
  let e := H a b (c ^ 4) (dec ^ 2)
  { ID := tsk.ID
    Decryption := dec
    Key := tsk.PublicKey
    E := e
    Z := tsk.computeZ r e
    C := c }

/-- `CombinePartialDecryptionsZKP`: keep the shares whose proof verifies,
strip them to plain shares, and delegate to `CombinePartialDecryptions`.
The outer `Option` is `none` when some `VerifyProof` call aborts. -/
def ThresholdPublicKey.CombinePartialDecryptionsZKP (H : ℕ → ℕ → ℕ → ℕ → ℕ)
    (tk : ThresholdPublicKey) (shares : List PartialDecryptionZKP) :
    Option (Except CombineError (Option ℕ)) :=
  (shares.foldr
      (fun s acc =>
        acc.bind (fun kept =>
          (s.VerifyProof H).map (fun ok =>
            if ok then s.toPartialDecryption :: kept else kept)))
      (some []))
    |>.map tk.CombinePartialDecryptions

/-! ## Encryption (`paillier.go`, default level `s = 1`, modulus `N²`) -/

/-- `EncryptWithR` at the default encryption level:
`c = (r^N mod N²) · ((N+1)^m mod N²) mod N²`. -/
def EncryptWithR (N m r : ℕ) : ℕ :=
  r ^ N % (N * N) * ((N + 1) ^ m % (N * N)) % (N * N)

/-! ## Threshold key generator (`thresholdkey_generator.go`)

The random choices of the generator (the safe primes behind `n` and `m`, the
generator `v` of the squares, and the hiding polynomial's coefficients) are
parameters of `GeneratorState`; the arithmetic performed on them is embedded
below. -/

/-- `initD`: `d = (m⁻¹ mod n) · m`. -/
def initD (n m : ℕ) : Option ℕ :=
  (modInverse m n).map (fun mInverse => mInverse * m)

/-- The deterministic part of `ThresholdKeyGenerator`'s state once the
random values have been drawn. -/
structure GeneratorState where
  n : ℕ
  m : ℕ
  v : ℕ
  l : ℕ
  w : ℕ
  coeffs : List ℕ
deriving DecidableEq, Repr

def GeneratorState.nm (g : GeneratorState) : ℕ := g.n * g.m

def GeneratorState.nSquare (g : GeneratorState) : ℕ := g.n * g.n

def GeneratorState.delta (g : GeneratorState) : ℕ := Factorial g.l

/-- `computeShare`: `sᵢ = (Σⱼ f[j] · (index+1)^j) mod nm`, the exponent
computed by ordinary integer exponentiation and the modulo applied once to
the final sum. -/
def GeneratorState.computeShare (g : GeneratorState) (index : ℕ) : ℕ :=
  (g.coeffs.enum.foldl (fun share ai => share + ai.2 * (index + 1) ^ ai.1) 0) % g.nm

/-- `createShares`. -/
def GeneratorState.createShares (g : GeneratorState) : List ℕ :=
  (List.range g.l).map g.computeShare

/-- `createVerificationKeys`: `vᵢ = v^{sᵢ·Δ} mod n²`. -/
def GeneratorState.createVerificationKeys (g : GeneratorState) (shares : List ℕ) :
    List ℕ :=
  shares.map (fun share => g.v ^ (share * g.delta) % g.nSquare)

/-- `createSecretKey`. -/
def GeneratorState.createSecretKey (g : GeneratorState) (i : ℕ) (share : ℕ)
    (verificationKeys : List ℕ) : ThresholdSecretKey :=
  { N := g.n
    VerificationKey := g.v
    TotalNumberOfDecryptionServers := g.l
    Threshold := g.w
    Share := share
    ID := (i : ℤ) + 1
    VerificationKeys := verificationKeys }

/-- `createPrivateKeys`. -/
def GeneratorState.createPrivateKeys (g : GeneratorState) : List ThresholdSecretKey :=
  (List.range g.l).map
    (fun i => g.createSecretKey i (g.computeShare i)
      (g.createVerificationKeys g.createShares))

/-! ## Store-based model of `copyVerificationKeys` (for the defensive-copy
claim).  `gmp.Int` values live behind pointers; a `Store` is the heap and a
pointer is an index into it. -/

structure Store where
  cells : List ℕ
deriving DecidableEq, Repr

def Store.read (st : Store) (p : ℕ) : ℕ := st.cells.getD p 0

def Store.write (st : Store) (p : ℕ) (v : ℕ) : Store := ⟨st.cells.set p v⟩

def Store.alloc (st : Store) (v : ℕ) : Store × ℕ :=
  (⟨st.cells ++ [v]⟩, st.cells.length)

/-- A `ThresholdSecretKey` whose big-integer fields are pointers into a
`Store`. -/
structure ThresholdSecretKeyRef where
  NPtr : ℕ
  TotalNumberOfDecryptionServers : ℕ
  Threshold : ℕ
  VerificationKeyPtr : ℕ
  VerificationKeysPtrs : List ℕ
  ID : ℤ
  SharePtr : ℕ
deriving DecidableEq, Repr

/-- A `ThresholdPublicKey` whose big-integer fields are pointers into a
`Store`. -/
structure ThresholdPublicKeyRef where
  NPtr : ℕ
  TotalNumberOfDecryptionServers : ℕ
  Threshold : ℕ
  VerificationKeyPtr : ℕ
  VerificationKeysPtrs : List ℕ
deriving DecidableEq, Repr

/-- `copyVerificationKeys`: allocate a fresh cell per verification key,
holding `vi + 0`. -/
def copyVerificationKeysRef : Store → List ℕ → Store × List ℕ
  | st, [] => (st, [])
  | st, p :: ps =>
      let a := st.alloc (st.read p + 0)
      let rest := copyVerificationKeysRef a.1 ps
      (rest.1, a.2 :: rest.2)

/-- `ThresholdSecretKey.PublicKey`: a fresh `ThresholdPublicKey` whose
verification-key vector is defensively duplicated and whose `N` is a fresh
copy; `Threshold`, `TotalNumberOfDecryptionServers` and the pointer to the
shared `VerificationKey` are copied as values. -/
def publicKeyRef (st : Store) (tsk : ThresholdSecretKeyRef) :
    Store × ThresholdPublicKeyRef :=
  let cvk := copyVerificationKeysRef st tsk.VerificationKeysPtrs
  let an := cvk.1.alloc (cvk.1.read tsk.NPtr + 0)
  (an.1,
    { NPtr := an.2
      TotalNumberOfDecryptionServers := tsk.TotalNumberOfDecryptionServers
      Threshold := tsk.Threshold
      VerificationKeyPtr := tsk.VerificationKeyPtr
      VerificationKeysPtrs := cvk.2 })

/-! ## Shared helper lemmas -/

theorem combine_error_of_short {tk : ThresholdPublicKey}
    {shares : List PartialDecryption} (h : shares.length < tk.Threshold) :
    tk.CombinePartialDecryptions shares = .error .thresholdNotMet := by
  simp [ThresholdPublicKey.CombinePartialDecryptions,
    ThresholdPublicKey.verifyPartialDecryptions, h]

theorem dedup_length_ne_of_not_nodup {l : List ℤ} (h : ¬ l.Nodup) :
    l.dedup.length ≠ l.length := by
  intro hlen
  exact h (List.dedup_eq_self.mp ((List.dedup_sublist l).eq_of_length hlen))

theorem combine_error_of_dup {tk : ThresholdPublicKey}
    {shares : List PartialDecryption} (hlen : tk.Threshold ≤ shares.length)
    (hdup : ¬ (shares.map (fun s => s.ID)).Nodup) :
    tk.CombinePartialDecryptions shares = .error .duplicateShare := by
  have h1 : ¬ shares.length < tk.Threshold := by omega
  have h2 : (shares.map (fun s => s.ID)).dedup.length ≠ shares.length := by
    intro hlen2
    exact dedup_length_ne_of_not_nodup hdup (by simpa using hlen2)
  simp [ThresholdPublicKey.CombinePartialDecryptions,
    ThresholdPublicKey.verifyPartialDecryptions, h1, h2]

/-! ## Claim C4: the CRT constant -/

/-- C4: for a threshold key generator run with `n` and `m` coprime (and
`n > 1`, as holds for any product of two primes), `initD` succeeds and the
constant `d = (m⁻¹ mod n)·m` satisfies `d mod m = 0` and `d mod n = 1`. -/
theorem c4_crt_constant (n m : ℕ) (hn : 1 < n) (hco : Nat.Coprime m n) :
    ∃ d, initD n m = some d ∧ d % m = 0 ∧ d % n = 1 := by
  obtain ⟨z, hz, hz1⟩ := modInverse_isSome_of_coprime (by omega) hco
  refine ⟨z * m, by simp [initD, hz], ?_, ?_⟩
  · simp [Nat.mul_mod_left]
  · have : m * z % n = 1 % n := hz1
    rw [Nat.mul_comm z m, this, Nat.mod_eq_of_lt hn]

theorem c4_crt_constant_witness :
    (1 : ℕ) < 35 ∧ Nat.Coprime 6 35 ∧
      ∃ d, initD 35 6 = some d ∧ d % 6 = 0 ∧ d % 35 = 1 :=
  ⟨by norm_num, by decide, c4_crt_constant 35 6 (by norm_num) (by decide)⟩

/-! ## Claim C6: error handling in `CombinePartialDecryptions` -/

/-- C6: a share list shorter than the threshold is rejected with
`ThresholdNotMet` (the length check runs first, so this holds even when the
list also contains duplicate IDs); a list of at least threshold length in
which two shares carry the same ID is rejected with `DuplicateShare`; in
both cases no plaintext is produced. -/
theorem c6_combine_error_handling (tk : ThresholdPublicKey)
    (shares : List PartialDecryption) :
    (shares.length < tk.Threshold →
      tk.CombinePartialDecryptions shares = .error .thresholdNotMet) ∧
    (tk.Threshold ≤ shares.length → ¬ (shares.map (fun s => s.ID)).Nodup →
      tk.CombinePartialDecryptions shares = .error .duplicateShare) :=
  ⟨fun h => combine_error_of_short h, fun h1 h2 => combine_error_of_dup h1 h2⟩

theorem c6_combine_error_handling_witness :
    ThresholdPublicKey.CombinePartialDecryptions
        ⟨35, 2, 2, 0, []⟩ [] = .error .thresholdNotMet ∧
      ThresholdPublicKey.CombinePartialDecryptions
        ⟨35, 2, 2, 0, []⟩ [⟨1, 5⟩, ⟨1, 7⟩] = .error .duplicateShare :=
  ⟨(c6_combine_error_handling ⟨35, 2, 2, 0, []⟩ []).1 (by decide),
   (c6_combine_error_handling ⟨35, 2, 2, 0, []⟩ [⟨1, 5⟩, ⟨1, 7⟩]).2
     (by decide) (by decide)⟩

/-! ## Claim C8: the signed-exponent helper `exp` -/

/-- C8: `exp a b c` is `a^b mod c` for `b ≥ 0`; for `b < 0` it is the
modular inverse of `a^{|b|} mod c` when one exists and fails otherwise;
and the three concrete values from the test suite hold. -/
theorem c8_exp_signed (tk : ThresholdPublicKey) (a : ℕ) (b : ℤ) (c : ℕ) :
    (0 ≤ b → tk.exp a b c = some (a ^ b.toNat % c)) ∧
    (b < 0 →
      ((∃ z, z < c ∧ a ^ (-b).toNat % c * z % c = 1 % c) →
        ∃ z, tk.exp a b c = some z ∧ z < c ∧ a ^ (-b).toNat % c * z % c = 1 % c) ∧
      ((∀ z, z < c → a ^ (-b).toNat % c * z % c ≠ 1 % c) → tk.exp a b c = none)) ∧
    tk.exp 720 10 49 = some 43 ∧ tk.exp 720 0 49 = some 1 ∧
    tk.exp 720 (-10) 49 = some 8 := by
  refine ⟨?_, ⟨?_, ?_, ?_, ?_⟩⟩
  · intro h
    simp [ThresholdPublicKey.exp, not_lt.mpr h]
  · intro hneg
    constructor
    · rintro ⟨z, hz, hz1⟩
      rcases hmi : modInverse (a ^ (-b).toNat % c) c with _ | z2
      · exact absurd hz1 (modInverse_eq_none.mp hmi z hz)
      · obtain ⟨h1, h2⟩ := modInverse_spec hmi
        exact ⟨z2, by simp [ThresholdPublicKey.exp, hneg, hmi], h1, h2⟩
    · intro hnone
      simp only [ThresholdPublicKey.exp, hneg, if_pos]
      exact modInverse_eq_none.mpr hnone
  · simp only [ThresholdPublicKey.exp]; decide
  · simp only [ThresholdPublicKey.exp]; decide
  · simp only [ThresholdPublicKey.exp]; decide

theorem c8_exp_signed_witness :
    ThresholdPublicKey.exp ⟨0, 0, 0, 0, []⟩ 2 5 7 = some ((2 : ℕ) ^ 5 % 7) ∧
      (∃ z, ThresholdPublicKey.exp ⟨0, 0, 0, 0, []⟩ 3 (-1) 7 = some z ∧ z < 7 ∧
        (3 : ℕ) ^ 1 % 7 * z % 7 = 1 % 7) ∧
      ThresholdPublicKey.exp ⟨0, 0, 0, 0, []⟩ 2 (-1) 4 = none :=
  ⟨(c8_exp_signed ⟨0, 0, 0, 0, []⟩ 2 5 7).1 (by decide),
   by
     have h := ((c8_exp_signed ⟨0, 0, 0, 0, []⟩ 3 (-1) 7).2.1 (by decide)).1
       ⟨5, by decide, by decide⟩
     simpa using h,
   ((c8_exp_signed ⟨0, 0, 0, 0, []⟩ 2 (-1) 4).2.1 (by decide)).2 (by decide)⟩

/-! ## Claim C5: secret shares are polynomial values -/

/-- `generateHidingPolynomial`: the coefficient vector starts with `d`, the
remaining `w - 1` coefficients are the random draws. -/
def generateHidingPolynomial (d : ℕ) (rand : List ℕ) : List ℕ := d :: rand

theorem enum_foldl_eq_sum (coeffs : List ℕ) (x : ℕ) :
    coeffs.enum.foldl (fun share ai => share + ai.2 * x ^ ai.1) 0 =
      ∑ j ∈ Finset.range coeffs.length, coeffs.getD j 0 * x ^ j := by
  have key : ∀ (cs : List ℕ) (k acc : ℕ),
      (cs.enumFrom k).foldl (fun share ai => share + ai.2 * x ^ ai.1) acc =
        acc + ∑ j ∈ Finset.range cs.length, cs.getD j 0 * x ^ (k + j) := by
    intro cs
    induction cs with
    | nil => intro k acc; simp
    | cons a tail ih =>
        intro k acc
        simp only [List.enumFrom, List.foldl_cons, List.length_cons]
        rw [ih (k + 1) (acc + a * x ^ k), Finset.sum_range_succ']
        simp only [List.getD_cons_succ, List.getD_cons_zero, Nat.add_zero]
        have hsum : (∑ j ∈ Finset.range tail.length, tail.getD j 0 * x ^ (k + 1 + j))
            = ∑ j ∈ Finset.range tail.length, tail.getD j 0 * x ^ (k + (j + 1)) :=
          Finset.sum_congr rfl (fun j _ => by
            rw [show k + 1 + j = k + (j + 1) from by omega])
        rw [hsum]
        ring
  have h := key coeffs 0 0
  simpa [List.enum] using h

/-- C5: the `i`-th generated secret key (`1 ≤ i ≤ l`) carries `ID = i` and
`Share = f(i) mod nm`, where `f` is the hiding polynomial whose constant
coefficient is `d`, each term using the unreduced power `iʲ` and the single
reduction modulo `nm` applied to the final sum. -/
theorem c5_share_is_polynomial_value (g : GeneratorState) (d : ℕ) (rand : List ℕ)
    (hcoeffs : g.coeffs = generateHidingPolynomial d rand)
    (i : ℕ) (hi : i < g.l) :
    ∃ key, g.createPrivateKeys.get? i = some key ∧
      key.ID = (i : ℤ) + 1 ∧
      key.Share = (∑ j ∈ Finset.range g.coeffs.length,
        g.coeffs.getD j 0 * (i + 1) ^ j) % g.nm ∧
      g.coeffs.getD 0 0 = d := by
  refine ⟨g.createSecretKey i (g.computeShare i)
    (g.createVerificationKeys g.createShares), ?_, rfl, ?_, ?_⟩
  · simp only [GeneratorState.createPrivateKeys, List.get?_eq_getElem?,
      List.getElem?_map]
    rw [List.getElem?_range hi]
    rfl
  · show g.computeShare i = _
    rw [GeneratorState.computeShare, enum_foldl_eq_sum]
  · rw [hcoeffs]; rfl

theorem c5_share_is_polynomial_value_witness :
    ∃ key, (GeneratorState.createPrivateKeys ⟨35, 6, 4, 3, 2, [36, 7]⟩).get? 1
        = some key ∧
      key.ID = (1 : ℤ) + 1 ∧
      key.Share = (∑ j ∈ Finset.range ([36, 7] : List ℕ).length,
        ([36, 7] : List ℕ).getD j 0 * (1 + 1) ^ j) % (35 * 6) ∧
      ([36, 7] : List ℕ).getD 0 0 = 36 :=
  c5_share_is_polynomial_value ⟨35, 6, 4, 3, 2, [36, 7]⟩ 36 [7] rfl 1 (by norm_num)

/-! ## Claim C10: the unchecked `VerificationKeys[ID-1]` read -/

/-- C10: the slice read in `verifyPart2` is defined exactly when the proof's
`ID` lies in `[1, len(VerificationKeys)]`; for an `ID` outside that range
`verifyPart2` and `VerifyProof` abort (modelled by `none`) rather than
returning `false`. -/
theorem c10_verifyPart2_bounds (pd : PartialDecryptionZKP) :
    ((listGetZ pd.Key.VerificationKeys (pd.ID - 1)).isSome ↔
      1 ≤ pd.ID ∧ pd.ID ≤ pd.Key.VerificationKeys.length) ∧
    (¬ (1 ≤ pd.ID ∧ pd.ID ≤ pd.Key.VerificationKeys.length) →
      pd.verifyPart2 = none ∧ ∀ H, pd.VerifyProof H = none) := by
  have haccess : (listGetZ pd.Key.VerificationKeys (pd.ID - 1)).isSome ↔
      1 ≤ pd.ID ∧ pd.ID ≤ pd.Key.VerificationKeys.length := by
    unfold listGetZ
    rcases le_or_lt 0 (pd.ID - 1) with hge | hlt
    · rw [if_pos hge, List.get?_eq_getElem?]
      have htn : ((pd.ID - 1).toNat : ℤ) = pd.ID - 1 := Int.toNat_of_nonneg hge
      constructor
      · intro h
        have hlt2 : (pd.ID - 1).toNat < pd.Key.VerificationKeys.length := by
          by_contra hc
          rw [List.getElem?_eq_none (by omega)] at h
          simp at h
        have h2 : ((pd.ID - 1).toNat : ℤ) < pd.Key.VerificationKeys.length := by
          exact_mod_cast hlt2
        omega
      · intro hb
        have hlt2 : (pd.ID - 1).toNat < pd.Key.VerificationKeys.length := by omega
        rw [List.getElem?_eq_getElem hlt2]
        simp
    · rw [if_neg (by omega)]
      simp only [Option.isSome_none, Bool.false_eq_true, false_iff]
      omega
  refine ⟨haccess, fun hout => ?_⟩
  have hnone : listGetZ pd.Key.VerificationKeys (pd.ID - 1) = none := by
    rcases h : listGetZ pd.Key.VerificationKeys (pd.ID - 1) with _ | v
    · rfl
    · exact absurd (haccess.mp (by simp [h])) hout
  have hvp2 : pd.verifyPart2 = none := by
    unfold PartialDecryptionZKP.verifyPart2
    rw [hnone]
    rfl
  refine ⟨hvp2, fun H => ?_⟩
  unfold PartialDecryptionZKP.VerifyProof
  rw [hvp2]
  rcases pd.verifyPart1 with _ | a <;> rfl

theorem c10_verifyPart2_bounds_witness :
    PartialDecryptionZKP.verifyPart2 ⟨0, 5, ⟨35, 2, 2, 4, [9, 16]⟩, 1, 1, 3⟩ = none ∧
      PartialDecryptionZKP.VerifyProof (fun a b c d => a + b + c + d)
        ⟨0, 5, ⟨35, 2, 2, 4, [9, 16]⟩, 1, 1, 3⟩ = none :=
  ⟨((c10_verifyPart2_bounds ⟨0, 5, ⟨35, 2, 2, 4, [9, 16]⟩, 1, 1, 3⟩).2
      (by decide)).1,
   ((c10_verifyPart2_bounds ⟨0, 5, ⟨35, 2, 2, 4, [9, 16]⟩, 1, 1, 3⟩).2
      (by decide)).2 (fun a b c d => a + b + c + d)⟩

/-! ## Claim C7: `CombinePartialDecryptionsZKP` filters on proof validity -/

theorem zkp_fold_eq_filter (H : ℕ → ℕ → ℕ → ℕ → ℕ)
    (shares : List PartialDecryptionZKP)
    (hdef : ∀ s ∈ shares, (s.VerifyProof H).isSome) :
    (shares.foldr
        (fun s acc =>
          acc.bind (fun kept =>
            (s.VerifyProof H).map (fun ok =>
              if ok then s.toPartialDecryption :: kept else kept)))
        (some [])) =
      some ((shares.filter (fun s => s.VerifyProof H == some true)).map
        PartialDecryptionZKP.toPartialDecryption) := by
  induction shares with
  | nil => rfl
  | cons s rest ih =>
      have hs := hdef s (List.mem_cons_self s rest)
      obtain ⟨b, hb⟩ := Option.isSome_iff_exists.mp hs
      have hrest := ih (fun t ht => hdef t (List.mem_cons_of_mem s ht))
      simp only [List.foldr_cons, hrest, Option.bind_some, hb, Option.map_some,
        List.filter_cons]
      cases b with
      | true => simp [hb]
      | false => simp [hb]

/-- C7: when every proof in the list evaluates (no abort),
`CombinePartialDecryptionsZKP` combines exactly the shares whose proof
verifies, dropping failing proofs without an error of their own, and when
too few proofs survive the delegated `CombinePartialDecryptions` reports
`ThresholdNotMet`. -/
theorem c7_zkp_filter (H : ℕ → ℕ → ℕ → ℕ → ℕ) (tk : ThresholdPublicKey)
    (shares : List PartialDecryptionZKP)
    (hdef : ∀ s ∈ shares, (s.VerifyProof H).isSome) :
    tk.CombinePartialDecryptionsZKP H shares =
      some (tk.CombinePartialDecryptions
        ((shares.filter (fun s => s.VerifyProof H == some true)).map
          PartialDecryptionZKP.toPartialDecryption)) ∧
    ((shares.filter (fun s => s.VerifyProof H == some true)).length < tk.Threshold →
      tk.CombinePartialDecryptionsZKP H shares =
        some (.error .thresholdNotMet)) := by
  have hmain : tk.CombinePartialDecryptionsZKP H shares =
      some (tk.CombinePartialDecryptions
        ((shares.filter (fun s => s.VerifyProof H == some true)).map
          PartialDecryptionZKP.toPartialDecryption)) := by
    unfold ThresholdPublicKey.CombinePartialDecryptionsZKP
    rw [zkp_fold_eq_filter H shares hdef]
    rfl
  refine ⟨hmain, fun hshort => ?_⟩
  rw [hmain, combine_error_of_short (by simpa using hshort)]

theorem c7_zkp_filter_witness :
    ThresholdPublicKey.CombinePartialDecryptionsZKP (fun a b c d => 0)
        ⟨2, 2, 2, 3, [3]⟩ [⟨1, 3, ⟨2, 2, 2, 3, [3]⟩, 1, 0, 2⟩] =
      some (ThresholdPublicKey.CombinePartialDecryptions ⟨2, 2, 2, 3, [3]⟩
        ((([⟨1, 3, ⟨2, 2, 2, 3, [3]⟩, 1, 0, 2⟩] :
            List PartialDecryptionZKP).filter
          (fun s => s.VerifyProof (fun a b c d => 0) == some true)).map
          PartialDecryptionZKP.toPartialDecryption)) ∧
      ThresholdPublicKey.CombinePartialDecryptionsZKP (fun a b c d => 0)
        ⟨2, 2, 2, 3, [3]⟩ [⟨1, 3, ⟨2, 2, 2, 3, [3]⟩, 1, 0, 2⟩] =
      some (.error .thresholdNotMet) :=
  ⟨(c7_zkp_filter (fun a b c d => 0) ⟨2, 2, 2, 3, [3]⟩
      [⟨1, 3, ⟨2, 2, 2, 3, [3]⟩, 1, 0, 2⟩] (by decide)).1,
   (c7_zkp_filter (fun a b c d => 0) ⟨2, 2, 2, 3, [3]⟩
      [⟨1, 3, ⟨2, 2, 2, 3, [3]⟩, 1, 0, 2⟩] (by decide)).2 (by decide)⟩

/-! ## Claim C9: defensive duplication of the verification-key vector -/

theorem store_read_append_left {l1 l2 : List ℕ} {i : ℕ} (h : i < l1.length) :
    (Store.mk (l1 ++ l2)).read i = (Store.mk l1).read i := by
  show (l1 ++ l2).getD i 0 = l1.getD i 0
  rw [List.getD_append _ _ _ _ h]

theorem store_read_append_at {l1 l2 : List ℕ} {j : ℕ} :
    (Store.mk (l1 ++ l2)).read (l1.length + j) = (Store.mk l2).read j := by
  show (l1 ++ l2).getD (l1.length + j) 0 = l2.getD j 0
  rw [List.getD_append_right _ _ _ _ (by omega)]
  simp

theorem store_read_write_ne {st : Store} {p q v : ℕ} (h : p ≠ q) :
    (st.write p v).read q = st.read q := by
  show (st.cells.set p v).getD q 0 = st.cells.getD q 0
  unfold List.getD
  rw [List.get?_eq_getElem?, List.get?_eq_getElem?, List.getElem?_set_ne h]

theorem copyVerificationKeysRef_spec (ps : List ℕ) : ∀ (st : Store),
    (∀ p ∈ ps, p < st.cells.length) →
    ∃ extra : List ℕ,
      (copyVerificationKeysRef st ps).1.cells = st.cells ++ extra ∧
      (copyVerificationKeysRef st ps).2.length = ps.length ∧
      (∀ k, k < ps.length →
        st.cells.length ≤ (copyVerificationKeysRef st ps).2.getD k 0 ∧
        (copyVerificationKeysRef st ps).2.getD k 0 <
          (copyVerificationKeysRef st ps).1.cells.length ∧
        (copyVerificationKeysRef st ps).1.read ((copyVerificationKeysRef st ps).2.getD k 0)
          = st.read (ps.getD k 0)) := by
  induction ps with
  | nil =>
      intro st _
      exact ⟨[], by simp [copyVerificationKeysRef], rfl, by intro k hk; simp at hk⟩
  | cons p ps ih =>
      intro st hvalid
      have hp : p < st.cells.length := hvalid p (List.mem_cons_self p ps)
      set st1 : Store := ⟨st.cells ++ [st.read p + 0]⟩ with hst1
      have hvalid1 : ∀ q ∈ ps, q < st1.cells.length := by
        intro q hq
        have := hvalid q (List.mem_cons_of_mem p hq)
        simp only [hst1, List.length_append, List.length_cons, List.length_nil]
        omega
      obtain ⟨extra, hcells, hlen, hks⟩ := ih st1 hvalid1
      have hstore : (copyVerificationKeysRef st1 ps).1 =
          Store.mk (st.cells ++ ([st.read p + 0] ++ extra)) := by
        have h2 : (copyVerificationKeysRef st1 ps).1.cells =
            st.cells ++ ([st.read p + 0] ++ extra) := by
          rw [hcells, hst1, List.append_assoc]
        calc (copyVerificationKeysRef st1 ps).1
            = Store.mk (copyVerificationKeysRef st1 ps).1.cells := rfl
          _ = _ := by rw [h2]
      refine ⟨(st.read p + 0) :: extra, ?_, ?_, ?_⟩
      · show (copyVerificationKeysRef st1 ps).1.cells = _
        rw [hcells, hst1]
        simp
      · show ((copyVerificationKeysRef st1 ps).2.cons st.cells.length).length = _
        simp [hlen]
      · intro k hk
        rcases k with _ | k2
        · refine ⟨le_refl _, ?_, ?_⟩
          · show st.cells.length < (copyVerificationKeysRef st1 ps).1.cells.length
            rw [hcells, hst1]
            simp only [List.length_append, List.length_cons, List.length_nil]
            omega
          · show (copyVerificationKeysRef st1 ps).1.read st.cells.length = st.read p
            rw [hstore]
            have h0 := @store_read_append_at st.cells ([st.read p + 0] ++ extra) 0
            have h1 : (Store.mk ([st.read p + 0] ++ extra)).read 0 = st.read p := by
              simp [Store.read]
            exact h0.trans h1
        · have hk2 : k2 < ps.length := by simpa using hk
          obtain ⟨h1, h2, h3⟩ := hks k2 hk2
          have hst1len : st.cells.length ≤ st1.cells.length := by
            rw [hst1]; simp
          refine ⟨?_, h2, ?_⟩
          · show st.cells.length ≤ (copyVerificationKeysRef st1 ps).2.getD k2 0
            omega
          · have hread : st1.read (ps.getD k2 0) = st.read (ps.getD k2 0) := by
              have hq : ps.getD k2 0 < st.cells.length := by
                apply hvalid
                apply List.mem_cons_of_mem
                rw [List.getD_eq_getElem ps 0 hk2]
                exact List.getElem_mem hk2
              rw [hst1]
              exact store_read_append_left hq
            show (copyVerificationKeysRef st1 ps).1.read
                ((copyVerificationKeysRef st1 ps).2.getD k2 0) = st.read (ps.getD k2 0)
            rw [← hread]
            exact h3

/-- C9: `PublicKey()` returns a copy that agrees with the original on `N`,
`Threshold`, `TotalNumberOfDecryptionServers`, `VerificationKey` and every
verification-key value, and whose verification-key vector is defensively
duplicated: writing to any cell of the copy's vector leaves every value
reachable from the original key unchanged. -/
theorem c9_publicKey_defensive_copy (st : Store) (tsk : ThresholdSecretKeyRef)
    (hvalid : ∀ p ∈ tsk.VerificationKeysPtrs, p < st.cells.length)
    (hn : tsk.NPtr < st.cells.length) :
    (publicKeyRef st tsk).2.Threshold = tsk.Threshold ∧
    (publicKeyRef st tsk).2.TotalNumberOfDecryptionServers =
      tsk.TotalNumberOfDecryptionServers ∧
    (publicKeyRef st tsk).2.VerificationKeyPtr = tsk.VerificationKeyPtr ∧
    (publicKeyRef st tsk).1.read (publicKeyRef st tsk).2.NPtr = st.read tsk.NPtr ∧
    (publicKeyRef st tsk).2.VerificationKeysPtrs.length =
      tsk.VerificationKeysPtrs.length ∧
    (∀ k, k < tsk.VerificationKeysPtrs.length →
      (publicKeyRef st tsk).1.read ((publicKeyRef st tsk).2.VerificationKeysPtrs.getD k 0)
        = st.read (tsk.VerificationKeysPtrs.getD k 0)) ∧
    (∀ k, k < tsk.VerificationKeysPtrs.length → ∀ v : ℕ,
      ∀ p ∈ tsk.VerificationKeysPtrs,
        (((publicKeyRef st tsk).1.write
            ((publicKeyRef st tsk).2.VerificationKeysPtrs.getD k 0) v)).read p
          = st.read p) := by
  obtain ⟨extra, hcells, hlen, hks⟩ :=
    copyVerificationKeysRef_spec tsk.VerificationKeysPtrs st hvalid
  set cvk := copyVerificationKeysRef st tsk.VerificationKeysPtrs with hcvk
  have hcvkstore : cvk.1 = Store.mk (st.cells ++ extra) := by
    calc cvk.1 = Store.mk cvk.1.cells := rfl
      _ = _ := by rw [hcells]
  have hreadN : cvk.1.read tsk.NPtr = st.read tsk.NPtr := by
    rw [hcvkstore]
    exact store_read_append_left hn
  have hfinalstore : (publicKeyRef st tsk).1 =
      Store.mk (cvk.1.cells ++ [cvk.1.read tsk.NPtr + 0]) := rfl
  have hreadpres : ∀ q, q < st.cells.length →
      (publicKeyRef st tsk).1.read q = st.read q := by
    intro q hq
    rw [hfinalstore, hcells, List.append_assoc]
    have h1 := @store_read_append_left st.cells
      (extra ++ [cvk.1.read tsk.NPtr + 0]) q hq
    exact h1
  refine ⟨rfl, rfl, rfl, ?_, hlen, ?_, ?_⟩
  · show (publicKeyRef st tsk).1.read ((publicKeyRef st tsk).2.NPtr) = _
    have hidx : (publicKeyRef st tsk).2.NPtr = cvk.1.cells.length := rfl
    rw [hidx, hfinalstore]
    have h0 := @store_read_append_at cvk.1.cells [cvk.1.read tsk.NPtr + 0] 0
    have h1 : (Store.mk [cvk.1.read tsk.NPtr + 0]).read 0 = cvk.1.read tsk.NPtr := by
      simp [Store.read]
    exact h0.trans (h1.trans hreadN)
  · intro k hk
    obtain ⟨h1, h2, h3⟩ := hks k hk
    have hq : cvk.2.getD k 0 < cvk.1.cells.length := h2
    have hstep : (publicKeyRef st tsk).1.read (cvk.2.getD k 0)
        = cvk.1.read (cvk.2.getD k 0) := by
      rw [hfinalstore]
      have ha := @store_read_append_left cvk.1.cells
        [cvk.1.read tsk.NPtr + 0] (cvk.2.getD k 0) hq
      exact ha
    exact hstep.trans h3
  · intro k hk v p hp
    obtain ⟨h1, _, _⟩ := hks k hk
    have hplt : p < st.cells.length := hvalid p hp
    have hne : (publicKeyRef st tsk).2.VerificationKeysPtrs.getD k 0 ≠ p := by
      show cvk.2.getD k 0 ≠ p
      omega
    rw [store_read_write_ne hne]
    exact hreadpres p hplt

theorem c9_publicKey_defensive_copy_witness :
    (publicKeyRef ⟨[7, 9, 11]⟩ ⟨0, 3, 2, 1, [1, 2], 1, 0⟩).2.Threshold = 2 ∧
      (publicKeyRef ⟨[7, 9, 11]⟩ ⟨0, 3, 2, 1, [1, 2], 1, 0⟩).1.read
          (publicKeyRef ⟨[7, 9, 11]⟩ ⟨0, 3, 2, 1, [1, 2], 1, 0⟩).2.NPtr = 7 ∧
      ((publicKeyRef ⟨[7, 9, 11]⟩ ⟨0, 3, 2, 1, [1, 2], 1, 0⟩).1.write
          ((publicKeyRef ⟨[7, 9, 11]⟩
            ⟨0, 3, 2, 1, [1, 2], 1, 0⟩).2.VerificationKeysPtrs.getD 0 0) 99).read 1
        = 9 := by
  have h := c9_publicKey_defensive_copy ⟨[7, 9, 11]⟩ ⟨0, 3, 2, 1, [1, 2], 1, 0⟩
    (by decide) (by decide)
  refine ⟨h.1, ?_, ?_⟩
  · rw [h.2.2.2.1]; rfl
  · rw [h.2.2.2.2.2.2 0 (by decide) 99 1 (by decide)]; rfl

/-! ## Bridge lemmas between the `ℕ` computations and `ZMod` -/

theorem cast_pow_mod (a k M : ℕ) : ((a ^ k % M : ℕ) : ZMod M) = (a : ZMod M) ^ k := by
  rw [ZMod.natCast_mod, Nat.cast_pow]

theorem cast_mul_mod (a b M : ℕ) :
    ((a * b % M : ℕ) : ZMod M) = (a : ZMod M) * (b : ZMod M) := by
  rw [ZMod.natCast_mod, Nat.cast_mul]

theorem eq_of_cast_eq_of_lt {M x y : ℕ} (hM : 0 < M) (hx : x < M) (hy : y < M)
    (h : (x : ZMod M) = (y : ZMod M)) : x = y := by
  haveI : NeZero M := ⟨by omega⟩
  rw [← ZMod.val_cast_of_lt hx, ← ZMod.val_cast_of_lt hy, h]

theorem modInverse_cast {M x z : ℕ} (h : modInverse x M = some z) :
    (x : ZMod M) * (z : ZMod M) = 1 := by
  obtain ⟨_, hmod⟩ := modInverse_spec h
  have := (ZMod.natCast_eq_natCast_iff _ _ _).mpr (hmod : x * z ≡ 1 [MOD M])
  push_cast at this
  exact this

theorem modInverse_isSome_of_unit {M x : ℕ} (hM : 0 < M)
    (hu : IsUnit ((x : ℕ) : ZMod M)) : ∃ z, modInverse x M = some z := by
  rcases Nat.lt_or_ge M 2 with h1 | h1
  · have hM1 : M = 1 := by omega
    subst hM1
    exact ⟨0, modInverse_eq_some (by omega) (by omega)⟩
  · haveI : NeZero M := ⟨by omega⟩
    obtain ⟨z, hz, _⟩ := modInverse_isSome_of_coprime hM
      ((ZMod.isUnit_iff_coprime x M).mp hu)
    exact ⟨z, hz⟩

/-! ## Claim C2: completeness of the partial-decryption ZKP -/

/-- C2: for a threshold secret key whose verification data is consistent
(its verification-key entry is `V^{s·Δ} mod n²` and `V` is a unit modulo
`n²`, as the generator guarantees) and any ciphertext `c` that is a unit
modulo `n²`, the proof produced by `PartialDecryptionWithZKP` — with
`Z = r + e·Δ·s` computed over unreduced integers — verifies, for every
nonce `r` and every Fiat–Shamir hash `H`. -/
theorem c2_zkp_completeness (tsk : ThresholdSecretKey) (c r : ℕ)
    (H : ℕ → ℕ → ℕ → ℕ → ℕ) (hN : 1 < tsk.N)
    (hc : IsUnit ((c : ℕ) : ZMod tsk.toThresholdPublicKey.GetN2))
    (hv : IsUnit ((tsk.VerificationKey : ℕ) : ZMod tsk.toThresholdPublicKey.GetN2))
    (hvi : listGetZ tsk.VerificationKeys (tsk.ID - 1) =
      some (tsk.VerificationKey ^ (tsk.Share * tsk.toThresholdPublicKey.delta) %
        tsk.toThresholdPublicKey.GetN2)) :
    (tsk.PartialDecryptionWithZKP H c r).VerifyProof H = some true := by
  set M := tsk.toThresholdPublicKey.GetN2 with hMdef
  have hM : 1 < M := by
    have : 1 * 1 < tsk.N * tsk.N :=
      Nat.mul_lt_mul_of_lt_of_lt hN hN
    simpa [hMdef, ThresholdPublicKey.GetN2] using this
  haveI : NeZero M := ⟨by omega⟩
  set s := tsk.Share with hsdef
  set dlt := tsk.toThresholdPublicKey.delta with hddef
  set v := tsk.VerificationKey with hvdef
  set decN := c ^ (s * (2 * dlt)) % M with hdecdef
  set aN := (c ^ 4) ^ r % M with hadef
  set bN := v ^ r % M with hbdef
  set eN := H aN bN (c ^ 4) (decN ^ 2) with hedef
  set ZN := r + eN * dlt * s with hZdef
  have hpd : tsk.PartialDecryptionWithZKP H c r =
      ⟨tsk.ID, decN, tsk.PublicKey, eN, ZN, c⟩ := rfl
  have hKeyN2 : (tsk.PublicKey : ThresholdPublicKey).GetN2 = M := rfl
  have hdec_cast : (decN : ZMod M) = ((c : ZMod M)) ^ (s * (2 * dlt)) :=
    cast_pow_mod c (s * (2 * dlt)) M
  -- Part 1
  have hx1cast : (((decN ^ 2) ^ eN % M : ℕ) : ZMod M)
      = ((c : ZMod M)) ^ (4 * (eN * dlt * s)) := by
    rw [cast_pow_mod]
    push_cast
    rw [hdec_cast, ← pow_mul, ← pow_mul]
    congr 1
    ring
  have hu1 : IsUnit (((decN ^ 2) ^ eN % M : ℕ) : ZMod M) := by
    rw [hx1cast]
    exact hc.pow _
  obtain ⟨z1, hz1⟩ := modInverse_isSome_of_unit (by omega) hu1
  have hz1inv : (((decN ^ 2) ^ eN % M : ℕ) : ZMod M) * (z1 : ZMod M) = 1 :=
    modInverse_cast hz1
  have hpart1 : (tsk.PartialDecryptionWithZKP H c r).verifyPart1 =
      some ((c ^ 4) ^ ZN % M * z1 % M) := by
    rw [hpd]
    show (modInverse ((decN ^ 2) ^ eN % M) M).map
        (fun a2 => (c ^ 4) ^ ZN % M * a2 % M) = _
    rw [hz1]
    rfl
  have haval : (c ^ 4) ^ ZN % M * z1 % M = aN := by
    apply eq_of_cast_eq_of_lt (by omega) (Nat.mod_lt _ (by omega))
      (Nat.mod_lt _ (by omega))
    rw [cast_mul_mod, cast_pow_mod, cast_pow_mod]
    push_cast
    have hsplit : ((c : ZMod M) ^ 4) ^ ZN
        = ((c : ZMod M) ^ 4) ^ r * (c : ZMod M) ^ (4 * (eN * dlt * s)) := by
      rw [← pow_mul, ← pow_mul, ← pow_add]
      congr 1
      rw [hZdef]
      ring
    rw [hsplit, mul_assoc, ← hx1cast, hz1inv, mul_one]
  -- Part 2
  have hx2cast : ((v ^ (s * dlt) % M) ^ eN % M : ℕ) =
      ((v ^ (s * dlt) % M) ^ eN % M : ℕ) := rfl
  have hx2cast2 : (((v ^ (s * dlt) % M) ^ eN % M : ℕ) : ZMod M)
      = ((v : ZMod M)) ^ (eN * dlt * s) := by
    rw [cast_pow_mod, cast_pow_mod, ← pow_mul]
    congr 1
    ring
  have hu2 : IsUnit (((v ^ (s * dlt) % M) ^ eN % M : ℕ) : ZMod M) := by
    rw [hx2cast2]
    exact hv.pow _
  obtain ⟨z2, hz2⟩ := modInverse_isSome_of_unit (by omega) hu2
  have hz2inv : (((v ^ (s * dlt) % M) ^ eN % M : ℕ) : ZMod M) * (z2 : ZMod M) = 1 :=
    modInverse_cast hz2
  have hpart2 : (tsk.PartialDecryptionWithZKP H c r).verifyPart2 =
      some (v ^ ZN % M * z2 % M) := by
    rw [hpd]
    show (listGetZ tsk.VerificationKeys (tsk.ID - 1)).bind
        (fun vi => (modInverse (vi ^ eN % M) M).map
          (fun b2 => v ^ ZN % M * b2 % M)) = _
    rw [hvi]
    show (modInverse ((v ^ (s * dlt) % M) ^ eN % M) M).map
        (fun b2 => v ^ ZN % M * b2 % M) = _
    rw [hz2]
    rfl
  have hbval : v ^ ZN % M * z2 % M = bN := by
    apply eq_of_cast_eq_of_lt (by omega) (Nat.mod_lt _ (by omega))
      (Nat.mod_lt _ (by omega))
    rw [cast_mul_mod, cast_pow_mod, cast_pow_mod]
    have hsplit : (v : ZMod M) ^ ZN
        = (v : ZMod M) ^ r * (v : ZMod M) ^ (eN * dlt * s) := by
      rw [← pow_add]
    rw [hsplit, mul_assoc, ← hx2cast2, hz2inv, mul_one]
  -- Conclusion
  show ((tsk.PartialDecryptionWithZKP H c r).verifyPart1).bind (fun a =>
    ((tsk.PartialDecryptionWithZKP H c r).verifyPart2).map (fun b =>
      (tsk.PartialDecryptionWithZKP H c r).E ==
        H a b ((tsk.PartialDecryptionWithZKP H c r).C ^ 4)
          ((tsk.PartialDecryptionWithZKP H c r).Decryption ^ 2))) = some true
  rw [hpart1, hpart2, haval, hbval]
  show some ((⟨tsk.ID, decN, tsk.PublicKey, eN, ZN, c⟩ : PartialDecryptionZKP).E
    == H aN bN (c ^ 4) (decN ^ 2)) = some true
  simp [hedef]

theorem c2_zkp_completeness_witness :
    PartialDecryptionZKP.VerifyProof (fun a b c d => a + b + c + d)
      (ThresholdSecretKey.PartialDecryptionWithZKP (fun a b c d => a + b + c + d)
        ⟨⟨2, 1, 1, 3, [3]⟩, 1, 1⟩ 3 1) = some true :=
  c2_zkp_completeness ⟨⟨2, 1, 1, 3, [3]⟩, 1, 1⟩ 3 1 (fun a b c d => a + b + c + d)
    (by norm_num)
    (isUnit_of_mul_eq_one _ ((3 : ℕ) : ZMod 4) (by decide))
    (isUnit_of_mul_eq_one _ ((3 : ℕ) : ZMod 4) (by decide))
    (by decide)

/-! ## The Lagrange coefficient fold: exact divisibility -/

theorem prod_Icc_one_eq_factorial (n : ℕ) :
    ∏ x ∈ Finset.Icc 1 n, x = Nat.factorial n := by
  induction n with
  | zero => simp
  | succ k ih =>
      rw [Finset.prod_Icc_succ_top (by omega), ih, Nat.factorial_succ, Nat.mul_comm]

theorem prod_distinct_dvd_factorial {c : ℕ} (S : Finset ℕ)
    (hS : ∀ x ∈ S, x ∈ Finset.Icc 1 c) : (∏ x ∈ S, x) ∣ Nat.factorial c := by
  rw [← prod_Icc_one_eq_factorial]
  exact Finset.prod_dvd_prod_of_subset S (Finset.Icc 1 c) id (fun x hx => hS x hx)

theorem prod_image_dvd_factorial {c : ℕ} (T : Finset ℤ) (f : ℤ → ℕ)
    (hinj : ∀ x ∈ T, ∀ y ∈ T, f x = f y → x = y)
    (hmem : ∀ j ∈ T, f j ∈ Finset.Icc 1 c) :
    (∏ j ∈ T, f j) ∣ Nat.factorial c := by
  have himg : ∏ x ∈ T.image f, x = ∏ j ∈ T, f j :=
    Finset.prod_image (fun x hx y hy h => hinj x hx y hy h)
  rw [← himg]
  apply prod_distinct_dvd_factorial
  intro x hx
  obtain ⟨j, hj, rfl⟩ := Finset.mem_image.mp hx
  exact hmem j hj

/-- For `i ∈ [1, l]` and any finite set `T` of integers in `[1, l]` not
containing `i`, the product `∏_{j ∈ T} (i - j)` divides `l!`. -/
theorem prod_sub_dvd_factorial (lU : ℕ) (i : ℤ) (hi1 : 1 ≤ i) (hi2 : i ≤ (lU : ℤ))
    (T : Finset ℤ) (hT : ∀ j ∈ T, 1 ≤ j ∧ j ≤ (lU : ℤ) ∧ j ≠ i) :
    (∏ j ∈ T, (i - j)) ∣ (Nat.factorial lU : ℤ) := by
  rw [← Int.natAbs_dvd_natAbs]
  have hN : (Nat.factorial lU : ℤ).natAbs = Nat.factorial lU := Int.natAbs_ofNat _
  rw [hN]
  have habs : (∏ j ∈ T, (i - j)).natAbs = ∏ j ∈ T, (i - j).natAbs :=
    map_prod Int.natAbsHom (fun j => i - j) T
  rw [habs]
  classical
  set iN := i.toNat with hiN
  have hiNval : (iN : ℤ) = i := Int.toNat_of_nonneg (by omega)
  rw [← Finset.prod_filter_mul_prod_filter_not T (fun j => j < i)
    (fun j => (i - j).natAbs)]
  have h1 : (∏ j ∈ T.filter (fun j => j < i), (i - j).natAbs) ∣
      Nat.factorial (iN - 1) := by
    apply prod_image_dvd_factorial
    · intro j1 hj1 j2 hj2 heq
      rw [Finset.mem_filter] at hj1 hj2
      have c1 := Int.natAbs_of_nonneg (show 0 ≤ i - j1 from by omega)
      have c2 := Int.natAbs_of_nonneg (show 0 ≤ i - j2 from by omega)
      omega
    · intro j hj
      rw [Finset.mem_filter] at hj
      obtain ⟨hjT, hji⟩ := hj
      obtain ⟨hj1, hj2, hjne⟩ := hT j hjT
      have c1 := Int.natAbs_of_nonneg (show 0 ≤ i - j from by omega)
      rw [Finset.mem_Icc]
      omega
  have h2 : (∏ j ∈ T.filter (fun j => ¬ j < i), (i - j).natAbs) ∣
      Nat.factorial (lU - iN) := by
    apply prod_image_dvd_factorial
    · intro j1 hj1 j2 hj2 heq
      rw [Finset.mem_filter] at hj1 hj2
      have s1 : (i - j1).natAbs = (j1 - i).natAbs := by
        rw [← Int.natAbs_neg, neg_sub]
      have s2 : (i - j2).natAbs = (j2 - i).natAbs := by
        rw [← Int.natAbs_neg, neg_sub]
      rw [s1, s2] at heq
      have c1 := Int.natAbs_of_nonneg (show 0 ≤ j1 - i from by omega)
      have c2 := Int.natAbs_of_nonneg (show 0 ≤ j2 - i from by omega)
      omega
    · intro j hj
      rw [Finset.mem_filter] at hj
      obtain ⟨hjT, hji⟩ := hj
      obtain ⟨hj1, hj2, hjne⟩ := hT j hjT
      have s1 : (i - j).natAbs = (j - i).natAbs := by
        rw [← Int.natAbs_neg, neg_sub]
      rw [s1]
      have c1 := Int.natAbs_of_nonneg (show 0 ≤ j - i from by omega)
      rw [Finset.mem_Icc]
      omega
  have h3 : Nat.factorial (iN - 1) * Nat.factorial (lU - iN) ∣
      Nat.factorial lU := by
    have h4 := Nat.factorial_mul_factorial_dvd_factorial_add (iN - 1) (lU - iN)
    have h5 : iN - 1 + (lU - iN) = lU - 1 := by omega
    rw [h5] at h4
    exact h4.trans (Nat.factorial_dvd_factorial (by omega))
  exact (mul_dvd_mul h1 h2).trans h3

/-- C3's exactness property, stated on the computation as performed by
`computeLambda`: each `updateLambda` division step has an exact divisor. -/
def stepsExact (i : ℤ) : ℤ → List PartialDecryption → Prop
  | _, [] => True
  | lam, s :: rest =>
      if s.ID ≠ i then
        ((i - s.ID) ∣ lam * (-s.ID)) ∧
          stepsExact i (lam * (-s.ID) / (i - s.ID)) rest
      else stepsExact i lam rest

/-- The same exactness property on the bare list of other IDs. -/
def stepsExactIds (i : ℤ) : ℤ → List ℤ → Prop
  | _, [] => True
  | lam, j :: ids =>
      ((i - j) ∣ lam * (-j)) ∧ stepsExactIds i (lam * (-j) / (i - j)) ids

theorem stepsExact_iff_stepsExactIds (i : ℤ) :
    ∀ (l : List PartialDecryption) (lam : ℤ),
      stepsExact i lam l ↔
        stepsExactIds i lam ((l.filter (fun s => s.ID ≠ i)).map (fun s => s.ID)) := by
  intro l
  induction l with
  | nil => intro lam; simp [stepsExact, stepsExactIds]
  | cons s rest ih =>
      intro lam
      by_cases hs : s.ID ≠ i
      · have hfilter : (s :: rest).filter (fun s2 => s2.ID ≠ i) =
            s :: rest.filter (fun s2 => s2.ID ≠ i) := by
          rw [List.filter_cons_of_pos (by simpa using hs)]
        rw [hfilter]
        show (if s.ID ≠ i then _ else _) ↔ _
        rw [if_pos hs]
        simp only [List.map_cons]
        show _ ↔ ((i - s.ID) ∣ lam * (-s.ID)) ∧ _
        rw [ih (lam * (-s.ID) / (i - s.ID))]
      · have hfilter : (s :: rest).filter (fun s2 => s2.ID ≠ i) =
            rest.filter (fun s2 => s2.ID ≠ i) := by
          rw [List.filter_cons_of_neg (by simpa using hs)]
        rw [hfilter]
        show (if s.ID ≠ i then _ else _) ↔ _
        rw [if_neg hs]
        exact ih lam

/-- `computeLambda` equals the plain fold over the other shares' IDs. -/
theorem computeLambda_eq_fold_ids (tk : ThresholdPublicKey)
    (share : PartialDecryption) (shares : List PartialDecryption) :
    tk.computeLambda share shares =
      ((shares.filter (fun s2 => s2.ID ≠ share.ID)).map (fun s2 => s2.ID)).foldl
        (fun lam j => lam * (-j) / (share.ID - j)) (tk.delta : ℤ) := by
  rw [ThresholdPublicKey.computeLambda]
  generalize (tk.delta : ℤ) = lam0
  induction shares generalizing lam0 with
  | nil => rfl
  | cons s rest ih =>
      by_cases hs : s.ID ≠ share.ID
      · rw [List.filter_cons_of_pos (by simpa using hs), List.map_cons,
          List.foldl_cons, List.foldl_cons, if_pos hs]
        exact ih _
      · rw [List.filter_cons_of_neg (by simpa using hs), List.foldl_cons,
          if_neg hs]
        exact ih _

/-- The master induction over the Lagrange fold: if every prefix-product of
the step divisors divides `Δ` (scaled by the already-consumed divisor `P`),
then every division step is exact and the overall fold satisfies the exact
product identity. -/
theorem lambda_pure_fold (dlt i : ℤ) :
    ∀ (ids : List ℤ) (lam P Q : ℤ), P ≠ 0 →
      lam * P = dlt * Q →
      (∀ j ∈ ids, j ≠ i) →
      (∀ sub : List ℤ, sub.Sublist ids →
        P * ((sub.map (fun j => i - j)).prod) ∣ dlt) →
      stepsExactIds i lam ids ∧
        (ids.foldl (fun lam j => lam * (-j) / (i - j)) lam) *
            (P * ((ids.map (fun j => i - j)).prod)) =
          dlt * (Q * ((ids.map (fun j => -j)).prod)) := by
  intro ids
  induction ids with
  | nil =>
      intro lam P Q hP heq _ _
      refine ⟨trivial, ?_⟩
      simp only [List.map_nil, List.prod_nil, List.foldl_nil, mul_one]
      exact heq
  | cons j ids ih =>
      intro lam P Q hP heq hne hsub
      have hji : j ≠ i := hne j (List.mem_cons_self j ids)
      have hij : i - j ≠ 0 := sub_ne_zero_of_ne (Ne.symm hji)
      have hdvd1 : P * (i - j) ∣ dlt := by
        have := hsub [j] ((List.nil_sublist ids).cons₂ j)
        simpa using this
      obtain ⟨t, ht⟩ := hdvd1
      have hkey : lam * (-j) = (i - j) * (t * Q * (-j)) := by
        have hq : P * (lam * (-j)) = P * ((i - j) * (t * Q * (-j))) := by
          have : lam * P * (-j) = dlt * Q * (-j) := by rw [heq]
          rw [ht] at this
          ring_nf
          ring_nf at this
          linarith [this]
        exact mul_left_cancel₀ hP hq
      have hstep : lam * (-j) / (i - j) = t * Q * (-j) := by
        rw [hkey]
        exact Int.mul_ediv_cancel_left _ hij
      have heq2 : (lam * (-j) / (i - j)) * (P * (i - j)) = dlt * (Q * (-j)) := by
        rw [hstep, ht]
        ring
      have hsub2 : ∀ sub : List ℤ, sub.Sublist ids →
          (P * (i - j)) * ((sub.map (fun j2 => i - j2)).prod) ∣ dlt := by
        intro sub hs
        have := hsub (j :: sub) (hs.cons₂ j)
        simp only [List.map_cons, List.prod_cons] at this
        calc (P * (i - j)) * ((sub.map (fun j2 => i - j2)).prod)
            = P * ((i - j) * (sub.map (fun j2 => i - j2)).prod) := by ring
        _ ∣ dlt := this
      obtain ⟨hex, hfold⟩ := ih (lam * (-j) / (i - j)) (P * (i - j)) (Q * (-j))
        (by exact mul_ne_zero hP hij) heq2
        (fun j2 hj2 => hne j2 (List.mem_cons_of_mem j hj2)) hsub2
      refine ⟨⟨⟨t * Q * (-j), hkey⟩, hex⟩, ?_⟩
      simp only [List.map_cons, List.prod_cons, List.foldl_cons]
      calc (ids.foldl (fun lam j2 => lam * (-j2) / (i - j2)) (lam * (-j) / (i - j))) *
            (P * ((i - j) * (ids.map (fun j2 => i - j2)).prod))
          = (ids.foldl (fun lam j2 => lam * (-j2) / (i - j2)) (lam * (-j) / (i - j))) *
            ((P * (i - j)) * (ids.map (fun j2 => i - j2)).prod) := by ring
        _ = dlt * ((Q * (-j)) * ((ids.map (fun j2 => -j2)).prod)) := hfold
        _ = dlt * (Q * ((-j) * (ids.map (fun j2 => -j2)).prod)) := by ring

/-- Specification of the Lagrange fold over a list of other IDs drawn from
`[1, l]` and distinct from `i`: every division step is exact and the result
satisfies the exact product identity. -/
theorem lambda_ids_spec (lU : ℕ) (dlt i : ℤ) (hdelta : dlt = (Nat.factorial lU : ℤ))
    (ids : List ℤ) (hi1 : 1 ≤ i) (hi2 : i ≤ (lU : ℤ))
    (hne : ∀ j ∈ ids, j ≠ i) (hnodup : ids.Nodup)
    (hrange : ∀ j ∈ ids, 1 ≤ j ∧ j ≤ (lU : ℤ)) :
    stepsExactIds i dlt ids ∧
      (ids.foldl (fun lam j => lam * (-j) / (i - j)) dlt) *
          ((ids.map (fun j => i - j)).prod) =
        dlt * ((ids.map (fun j => -j)).prod) := by
  have hdvd : ∀ sub : List ℤ, sub.Sublist ids →
      (1 : ℤ) * ((sub.map (fun j => i - j)).prod) ∣ dlt := by
    intro sub hs
    rw [one_mul, hdelta]
    have hsubnodup : sub.Nodup := hs.nodup hnodup
    have hlist : (sub.map (fun j => i - j)).prod =
        ∏ j ∈ sub.toFinset, (i - j) := (List.prod_toFinset _ hsubnodup).symm
    rw [hlist]
    apply prod_sub_dvd_factorial lU i hi1 hi2
    intro j hj
    have hjo : j ∈ ids := hs.subset (List.mem_toFinset.mp hj)
    exact ⟨(hrange j hjo).1, (hrange j hjo).2, hne j hjo⟩
  obtain ⟨hex, hfold⟩ := lambda_pure_fold dlt i ids dlt 1 1
    one_ne_zero (by ring) hne hdvd
  rw [one_mul, one_mul] at hfold
  exact ⟨hex, hfold⟩

theorem mem_filter_ne_id {i : ℤ} {shares : List PartialDecryption}
    {j : ℤ} (hj : j ∈ (shares.filter (fun s2 => s2.ID ≠ i)).map (fun s2 => s2.ID)) :
    j ≠ i ∧ ∃ s2 ∈ shares, s2.ID = j := by
  obtain ⟨s2, hs2, rfl⟩ := List.mem_map.mp hj
  have hmem := List.mem_filter.mp hs2
  exact ⟨of_decide_eq_true hmem.2, s2, hmem.1, rfl⟩

/-- Specification of `computeLambda` for a share list with pairwise distinct
IDs drawn from `[1, l]`: every division step is exact and the result
satisfies the exact Lagrange product identity. -/
theorem computeLambda_spec (tk : ThresholdPublicKey) (share : PartialDecryption)
    (shares : List PartialDecryption)
    (hrange : ∀ s ∈ shares, 1 ≤ s.ID ∧ s.ID ≤ (tk.TotalNumberOfDecryptionServers : ℤ))
    (hnodup : (shares.map (fun s => s.ID)).Nodup)
    (hshare1 : 1 ≤ share.ID) (hshare2 : share.ID ≤ (tk.TotalNumberOfDecryptionServers : ℤ)) :
    stepsExactIds share.ID (tk.delta : ℤ)
      ((shares.filter (fun s2 => s2.ID ≠ share.ID)).map (fun s2 => s2.ID)) ∧
    tk.computeLambda share shares *
        ((((shares.filter (fun s2 => s2.ID ≠ share.ID)).map (fun s2 => s2.ID)).map
          (fun j => share.ID - j)).prod) =
      (tk.delta : ℤ) *
        ((((shares.filter (fun s2 => s2.ID ≠ share.ID)).map (fun s2 => s2.ID)).map
          (fun j => -j)).prod) := by
  have hd : ((tk.delta : ℕ) : ℤ) =
      (Nat.factorial tk.TotalNumberOfDecryptionServers : ℤ) := by
    rw [ThresholdPublicKey.delta, Factorial_eq_factorial]
  have hne : ∀ j ∈ (shares.filter (fun s2 => s2.ID ≠ share.ID)).map (fun s2 => s2.ID),
      j ≠ share.ID := fun j hj => (mem_filter_ne_id hj).1
  have hothersnodup : ((shares.filter (fun s2 => s2.ID ≠ share.ID)).map
      (fun s2 => s2.ID)).Nodup := by
    have hsub : ((shares.filter (fun s2 => s2.ID ≠ share.ID)).map (fun s2 => s2.ID)).Sublist
        (shares.map (fun s2 => s2.ID)) :=
      (List.filter_sublist shares).map (fun s2 => s2.ID)
    exact hsub.nodup hnodup
  have hothersrange : ∀ j ∈ (shares.filter (fun s2 => s2.ID ≠ share.ID)).map
      (fun s2 => s2.ID), 1 ≤ j ∧ j ≤ (tk.TotalNumberOfDecryptionServers : ℤ) := by
    intro j hj
    obtain ⟨_, s2, hs2, rfl⟩ := mem_filter_ne_id hj
    exact hrange s2 hs2
  obtain ⟨hex, hfold⟩ := lambda_ids_spec tk.TotalNumberOfDecryptionServers
    (tk.delta : ℤ) share.ID hd
    ((shares.filter (fun s2 => s2.ID ≠ share.ID)).map (fun s2 => s2.ID))
    hshare1 hshare2 hne hothersnodup hothersrange
  refine ⟨hex, ?_⟩
  rw [computeLambda_eq_fold_ids]
  exact hfold

/-- The denominator product in `computeLambda_spec` is nonzero. -/
theorem lambda_denom_ne_zero {i : ℤ} {ids : List ℤ} (hne : ∀ j ∈ ids, j ≠ i) :
    ((ids.map (fun j => i - j)).prod : ℤ) ≠ 0 := by
  apply List.prod_ne_zero
  intro h0
  obtain ⟨j, hj, hj0⟩ := List.mem_map.mp h0
  exact absurd (by omega : j = i) (hne j hj)

/-- `computeLambda` is invariant under permutation of the share list. -/
theorem computeLambda_perm (tk : ThresholdPublicKey) (share : PartialDecryption)
    (shares shares' : List PartialDecryption) (hperm : shares.Perm shares')
    (hrange : ∀ s ∈ shares, 1 ≤ s.ID ∧ s.ID ≤ (tk.TotalNumberOfDecryptionServers : ℤ))
    (hnodup : (shares.map (fun s => s.ID)).Nodup)
    (hshare1 : 1 ≤ share.ID) (hshare2 : share.ID ≤ (tk.TotalNumberOfDecryptionServers : ℤ)) :
    tk.computeLambda share shares' = tk.computeLambda share shares := by
  have hrange' : ∀ s ∈ shares', 1 ≤ s.ID ∧ s.ID ≤ (tk.TotalNumberOfDecryptionServers : ℤ) :=
    fun s hs => hrange s (hperm.mem_iff.mpr hs)
  have hnodup' : (shares'.map (fun s => s.ID)).Nodup :=
    (hperm.map (fun s => s.ID)).nodup_iff.mp hnodup
  obtain ⟨_, hfold⟩ := computeLambda_spec tk share shares hrange hnodup hshare1 hshare2
  obtain ⟨_, hfold'⟩ := computeLambda_spec tk share shares' hrange' hnodup' hshare1 hshare2
  have hpermo : ((shares.filter (fun s2 => s2.ID ≠ share.ID)).map (fun s2 => s2.ID)).Perm
      ((shares'.filter (fun s2 => s2.ID ≠ share.ID)).map (fun s2 => s2.ID)) :=
    (hperm.filter (fun s2 => s2.ID ≠ share.ID)).map (fun s2 => s2.ID)
  have hprodD : (((shares'.filter (fun s2 => s2.ID ≠ share.ID)).map (fun s2 => s2.ID)).map
      (fun j => share.ID - j)).prod =
      (((shares.filter (fun s2 => s2.ID ≠ share.ID)).map (fun s2 => s2.ID)).map
      (fun j => share.ID - j)).prod :=
    (hpermo.symm.map (fun j => share.ID - j)).prod_eq
  have hprodN : (((shares'.filter (fun s2 => s2.ID ≠ share.ID)).map (fun s2 => s2.ID)).map
      (fun j => -j)).prod =
      (((shares.filter (fun s2 => s2.ID ≠ share.ID)).map (fun s2 => s2.ID)).map
      (fun j => -j)).prod :=
    (hpermo.symm.map (fun j => -j)).prod_eq
  rw [hprodD, hprodN] at hfold'
  have hdne : (((shares.filter (fun s2 => s2.ID ≠ share.ID)).map (fun s2 => s2.ID)).map
      (fun j => share.ID - j)).prod ≠ 0 := by
    apply lambda_denom_ne_zero
    intro j hj
    exact (mem_filter_ne_id hj).1
  exact mul_right_cancel₀ hdne (hfold'.trans hfold.symm)

/-- The `updateCprime` fold step commutes with itself (in any `Option`
state), which makes the accumulated product order-independent. -/
theorem updateCprime_step_comm (tk : ThresholdPublicKey)
    (lam : PartialDecryption → ℤ) (cp : Option ℕ) (s1 s2 : PartialDecryption) :
    ((cp.bind (fun cv => tk.updateCprime cv (lam s1) s1)).bind
      (fun cv => tk.updateCprime cv (lam s2) s2)) =
    ((cp.bind (fun cv => tk.updateCprime cv (lam s2) s2)).bind
      (fun cv => tk.updateCprime cv (lam s1) s1)) := by
  rcases cp with _ | cv
  · rfl
  · show ((tk.updateCprime cv (lam s1) s1).bind (fun cv => tk.updateCprime cv (lam s2) s2))
      = ((tk.updateCprime cv (lam s2) s2).bind (fun cv => tk.updateCprime cv (lam s1) s1))
    unfold ThresholdPublicKey.updateCprime
    rcases h1 : tk.exp s1.Decryption (2 * lam s1) tk.GetN2 with _ | r1 <;>
      rcases h2 : tk.exp s2.Decryption (2 * lam s2) tk.GetN2 with _ | r2 <;>
        try rfl
    show some (cv * r1 % tk.GetN2 * r2 % tk.GetN2)
        = some (cv * r2 % tk.GetN2 * r1 % tk.GetN2)
    have heq2 : cv * r1 % tk.GetN2 * r2 % tk.GetN2
        = cv * r2 % tk.GetN2 * r1 % tk.GetN2 := by
      rw [Nat.mod_mul_mod, Nat.mod_mul_mod,
        show cv * r1 * r2 = cv * r2 * r1 from by ring]
    rw [heq2]

/-! ## Claim C3: share combining is order-independent, with exact
intermediate divisions -/

/-- C3: for every threshold public key and list of at least `w` partial
decryptions with pairwise distinct IDs in `[1, l]`, `CombinePartialDecryptions`
returns the same result on every permutation of the list, and every
intermediate Lagrange update `λ ← (λ·(−IDⱼ)) / (IDᵢ − IDⱼ)` (starting from
`λ = Δ`) is an exact integer division in any evaluation order. -/
theorem c3_combine_order_independence (tk : ThresholdPublicKey)
    (shares shares' : List PartialDecryption) (hperm : shares.Perm shares')
    (hrange : ∀ s ∈ shares, 1 ≤ s.ID ∧ s.ID ≤ (tk.TotalNumberOfDecryptionServers : ℤ))
    (hnodup : (shares.map (fun s => s.ID)).Nodup)
    (hlen : tk.Threshold ≤ shares.length) :
    (∃ res, tk.CombinePartialDecryptions shares = .ok res ∧
      tk.CombinePartialDecryptions shares' = .ok res) ∧
    (∀ share ∈ shares', stepsExact share.ID (tk.delta : ℤ) shares') := by
  have hrange' : ∀ s ∈ shares', 1 ≤ s.ID ∧ s.ID ≤ (tk.TotalNumberOfDecryptionServers : ℤ) :=
    fun s hs => hrange s (hperm.mem_iff.mpr hs)
  have hnodup' : (shares'.map (fun s => s.ID)).Nodup :=
    (hperm.map (fun s => s.ID)).nodup_iff.mp hnodup
  have hlen' : tk.Threshold ≤ shares'.length := by
    rw [← hperm.length_eq]
    exact hlen
  have hverify : tk.verifyPartialDecryptions shares = none := by
    rw [ThresholdPublicKey.verifyPartialDecryptions, if_neg (by omega),
      if_neg (by
        rw [List.dedup_eq_self.mpr hnodup, List.length_map]
        simp)]
  have hverify' : tk.verifyPartialDecryptions shares' = none := by
    rw [ThresholdPublicKey.verifyPartialDecryptions, if_neg (by omega),
      if_neg (by
        rw [List.dedup_eq_self.mpr hnodup', List.length_map]
        simp)]
  constructor
  · have hfoldeq : shares'.foldl
        (fun cp share => cp.bind
          (fun c => tk.updateCprime c (tk.computeLambda share shares') share))
        (some 1) =
        shares.foldl
        (fun cp share => cp.bind
          (fun c => tk.updateCprime c (tk.computeLambda share shares) share))
        (some 1) := by
      have hext : shares'.foldl
          (fun cp share => cp.bind
            (fun c => tk.updateCprime c (tk.computeLambda share shares') share))
          (some 1) =
          shares'.foldl
          (fun cp share => cp.bind
            (fun c => tk.updateCprime c (tk.computeLambda share shares) share))
          (some 1) := by
        apply List.foldl_ext
        intro cp s hs
        rw [computeLambda_perm tk s shares shares' hperm hrange hnodup
          (hrange' s hs).1 (hrange' s hs).2]
      rw [hext]
      exact (hperm.symm.foldl_eq'
        (fun s1 _ s2 _ cp =>
          updateCprime_step_comm tk (fun s => tk.computeLambda s shares) cp s1 s2)
        (some 1))
    refine ⟨((shares.foldl
        (fun cp share => cp.bind
          (fun c => tk.updateCprime c (tk.computeLambda share shares) share))
        (some 1))).bind tk.computeDecryption, ?_, ?_⟩
    · rw [ThresholdPublicKey.CombinePartialDecryptions, hverify]
    · rw [ThresholdPublicKey.CombinePartialDecryptions, hverify', hfoldeq]
  · intro share hshare
    rw [stepsExact_iff_stepsExactIds]
    exact (computeLambda_spec tk share shares' hrange' hnodup'
      (hrange' share hshare).1 (hrange' share hshare).2).1

theorem c3_combine_order_independence_witness :
    (∃ res, ThresholdPublicKey.CombinePartialDecryptions ⟨35, 2, 2, 4, [4, 4]⟩
        [⟨1, 3⟩, ⟨2, 4⟩] = .ok res ∧
      ThresholdPublicKey.CombinePartialDecryptions ⟨35, 2, 2, 4, [4, 4]⟩
        [⟨2, 4⟩, ⟨1, 3⟩] = .ok res) ∧
      (∀ share ∈ ([⟨2, 4⟩, ⟨1, 3⟩] : List PartialDecryption),
        stepsExact share.ID ((2 : ℕ) : ℤ) [⟨2, 4⟩, ⟨1, 3⟩]) :=
  c3_combine_order_independence ⟨35, 2, 2, 4, [4, 4]⟩ [⟨1, 3⟩, ⟨2, 4⟩]
    [⟨2, 4⟩, ⟨1, 3⟩] (by decide) (by decide) (by decide) (by decide)

/-! ## Number-theoretic lemmas for threshold correctness (claim C1) -/

/-- Euler/CRT: for safe-prime moduli `n = pq` (`p = 2p₁+1`, `q = 2q₁+1`),
every unit modulo `n²` has order dividing `2·n·(p₁q₁)`. -/
theorem units_pow_exponent {p p1 q q1 : ℕ} (hp : p.Prime) (hq : q.Prime)
    (hpf : p = 2 * p1 + 1) (hqf : q = 2 * q1 + 1) (hpq : p ≠ q)
    (x : ℕ) (hx : Nat.Coprime x (p * q * (p * q))) :
    x ^ (2 * (p * q * (p1 * q1))) ≡ 1 [MOD p * q * (p * q)] := by
  have hmod : p * q * (p * q) = p * p * (q * q) := by ring
  rw [hmod] at hx ⊢
  have hcpq : Nat.Coprime p q := (Nat.coprime_primes hp hq).mpr hpq
  have hco : Nat.Coprime (p * p) (q * q) := by
    have h1 := hcpq.mul_right hcpq
    exact h1.mul h1
  apply (Nat.modEq_and_modEq_iff_modEq_mul hco).mp
  have hp1 : p - 1 = 2 * p1 := by omega
  have hq1 : q - 1 = 2 * q1 := by omega
  constructor
  · have hxp : Nat.Coprime x (p * p) :=
      Nat.Coprime.coprime_dvd_right (Dvd.intro _ rfl) hx
    have heuler : x ^ (p * p).totient ≡ 1 [MOD p * p] := Nat.ModEq.pow_totient hxp
    have htot : (p * p).totient = p * (p - 1) := by
      have h2 := Nat.totient_prime_pow hp (Nat.succ_pos 1)
      have hpp : p * p = p ^ 2 := by ring
      rw [hpp, h2]
      ring
    have hexp : 2 * (p * q * (p1 * q1)) = (p * p).totient * (q * q1) := by
      rw [htot, hp1]
      ring
    rw [hexp, pow_mul]
    calc (x ^ (p * p).totient) ^ (q * q1) ≡ 1 ^ (q * q1) [MOD p * p] :=
          heuler.pow (q * q1)
      _ = 1 := one_pow _
  · have hxq : Nat.Coprime x (q * q) :=
      Nat.Coprime.coprime_dvd_right (Dvd.intro_left _ rfl) hx
    have heuler : x ^ (q * q).totient ≡ 1 [MOD q * q] := Nat.ModEq.pow_totient hxq
    have htot : (q * q).totient = q * (q - 1) := by
      have h2 := Nat.totient_prime_pow hq (Nat.succ_pos 1)
      have hqq : q * q = q ^ 2 := by ring
      rw [hqq, h2]
      ring
    have hexp : 2 * (p * q * (p1 * q1)) = (q * q).totient * (p * p1) := by
      rw [htot, hq1]
      ring
    rw [hexp, pow_mul]
    calc (x ^ (q * q).totient) ^ (p * p1) ≡ 1 ^ (p * p1) [MOD q * q] :=
          heuler.pow (p * p1)
      _ = 1 := one_pow _

/-- Binomial identity modulo a square: `(1 + x)^e = 1 + e·x` when `x² = 0`. -/
theorem one_add_nilpotent_pow {R : Type} [CommRing R] (x : R) (hx : x * x = 0)
    (e : ℕ) : (1 + x) ^ e = 1 + (e : R) * x := by
  induction e with
  | zero => simp
  | succ k ih =>
      rw [pow_succ, ih]
      push_cast
      linear_combination (k : R) * hx

/-- Exponents of a unit can be reduced modulo any `E` with `u^E = 1`. -/
theorem units_zpow_congr {M : ℕ} (u : (ZMod M)ˣ) (E : ℕ) (hE : u ^ E = 1)
    (z1 z2 : ℤ) (hcong : z1 ≡ z2 [ZMOD (E : ℤ)]) : u ^ z1 = u ^ z2 := by
  have hdvd : (E : ℤ) ∣ z1 - z2 := Int.ModEq.dvd hcong.symm
  obtain ⟨k, hk⟩ := hdvd
  have hz1 : z1 = z2 + (E : ℤ) * k := by linarith
  rw [hz1, zpow_add, zpow_mul, zpow_natCast, hE, one_zpow, mul_one]

/-- `exp` on a unit argument computes `zpow` in the unit group. -/
theorem exp_isUnit_eq {M : ℕ} (hM : 1 < M) (tk : ThresholdPublicKey) (x : ℕ)
    (hu : IsUnit ((x : ℕ) : ZMod M)) (b : ℤ) :
    tk.exp x b M = some (((hu.unit ^ b : (ZMod M)ˣ) : ZMod M).val) := by
  haveI : NeZero M := ⟨by omega⟩
  rcases lt_or_ge b 0 with hneg | hpos
  · rw [ThresholdPublicKey.exp, if_pos hneg]
    set k := (-b).toNat with hkdef
    have hxk : IsUnit ((x ^ k % M : ℕ) : ZMod M) := by
      rw [cast_pow_mod]
      exact hu.pow _
    obtain ⟨z, hz⟩ := modInverse_isSome_of_unit (by omega) hxk
    rw [hz]
    congr 1
    have hzlt := (modInverse_spec hz).1
    have hzcast := modInverse_cast hz
    have hxkval : ((x ^ k % M : ℕ) : ZMod M)
        = ((hu.unit ^ k : (ZMod M)ˣ) : ZMod M) := by
      rw [cast_pow_mod, Units.val_pow_eq_pow_val, hu.unit_spec]
    have hbval : ((hu.unit ^ b : (ZMod M)ˣ) : ZMod M)
        = ((hu.unit ^ k : (ZMod M)ˣ)⁻¹ : (ZMod M)ˣ) := by
      have hb : b = -((k : ℕ) : ℤ) := by omega
      rw [hb, zpow_neg, zpow_natCast]
    have hzcast2 : ((z : ℕ) : ZMod M) = ((hu.unit ^ b : (ZMod M)ˣ) : ZMod M) := by
      rw [hbval]
      calc ((z : ℕ) : ZMod M)
          = (((hu.unit ^ k : (ZMod M)ˣ)⁻¹ : (ZMod M)ˣ) : ZMod M) *
            (((hu.unit ^ k : (ZMod M)ˣ) : (ZMod M)ˣ) : ZMod M) *
            ((z : ℕ) : ZMod M) := by
            rw [← Units.val_mul, inv_mul_cancel]
            simp
        _ = (((hu.unit ^ k : (ZMod M)ˣ)⁻¹ : (ZMod M)ˣ) : ZMod M) *
            (((x ^ k % M : ℕ) : ZMod M) * ((z : ℕ) : ZMod M)) := by
            rw [hxkval, mul_assoc]
        _ = _ := by rw [hzcast, mul_one]
    calc z = ((z : ℕ) : ZMod M).val := (ZMod.val_cast_of_lt hzlt).symm
      _ = ((hu.unit ^ b : (ZMod M)ˣ) : ZMod M).val := by rw [hzcast2]
  · rw [ThresholdPublicKey.exp, if_neg (not_lt.mpr hpos)]
    congr 1
    have hzb : (hu.unit ^ b : (ZMod M)ˣ) = hu.unit ^ b.toNat := by
      rw [← zpow_natCast, Int.toNat_of_nonneg hpos]
    rw [hzb]
    have hcast : ((hu.unit ^ b.toNat : (ZMod M)ˣ) : ZMod M)
        = ((x ^ b.toNat % M : ℕ) : ZMod M) := by
      rw [Units.val_pow_eq_pow_val, hu.unit_spec, cast_pow_mod]
    rw [hcast, ZMod.val_natCast, Nat.mod_mod_of_dvd _ dvd_rfl]

/-- The `updateCprime` fold over shares whose decryptions are powers of a
common unit `u` succeeds and accumulates the corresponding power of `u`. -/
theorem combine_fold_spec (tk : ThresholdPublicKey)
    (full : List PartialDecryption) (hM : 1 < tk.GetN2)
    (u : (ZMod tk.GetN2)ˣ) (e : PartialDecryption → ℤ) :
    ∀ (l : List PartialDecryption),
      (∀ s ∈ l, ((s.Decryption : ℕ) : ZMod tk.GetN2) =
        ((u ^ e s : (ZMod tk.GetN2)ˣ) : ZMod tk.GetN2)) →
      ∀ (x : ℕ), x < tk.GetN2 → ∀ (w : (ZMod tk.GetN2)ˣ),
        ((x : ℕ) : ZMod tk.GetN2) = (w : ZMod tk.GetN2) →
        ∃ y, l.foldl
            (fun cp share => cp.bind
              (fun c => tk.updateCprime c (tk.computeLambda share full) share))
            (some x) = some y ∧ y < tk.GetN2 ∧
          ((y : ℕ) : ZMod tk.GetN2) =
            ((w * u ^ ((l.map (fun s => e s * (2 * tk.computeLambda s full))).sum) :
              (ZMod tk.GetN2)ˣ) : ZMod tk.GetN2) := by
  haveI : NeZero tk.GetN2 := ⟨by omega⟩
  intro l
  induction l with
  | nil =>
      intro _ x hx w hw
      refine ⟨x, rfl, hx, ?_⟩
      simp only [List.map_nil, List.sum_nil, zpow_zero, mul_one]
      exact hw
  | cons s rest ih =>
      intro hdec x hx w hw
      have hsmem : ((s.Decryption : ℕ) : ZMod tk.GetN2) =
          ((u ^ e s : (ZMod tk.GetN2)ˣ) : ZMod tk.GetN2) :=
        hdec s (List.mem_cons_self s rest)
      have hsunit : IsUnit ((s.Decryption : ℕ) : ZMod tk.GetN2) := by
        rw [hsmem]
        exact (u ^ e s).isUnit
      have hexp := exp_isUnit_eq hM tk s.Decryption hsunit
        (2 * tk.computeLambda s full)
      have hstep : tk.updateCprime x (tk.computeLambda s full) s =
          some (x * ((hsunit.unit ^ (2 * tk.computeLambda s full) :
            (ZMod tk.GetN2)ˣ) : ZMod tk.GetN2).val % tk.GetN2) := by
        rw [ThresholdPublicKey.updateCprime, hexp]
        rfl
      have hsu : hsunit.unit = u ^ e s := by
        apply Units.ext
        rw [hsunit.unit_spec, hsmem]
      set x2 := x * ((hsunit.unit ^ (2 * tk.computeLambda s full) :
          (ZMod tk.GetN2)ˣ) : ZMod tk.GetN2).val % tk.GetN2 with hx2def
      have hx2lt : x2 < tk.GetN2 := Nat.mod_lt _ (by omega)
      have hx2cast : ((x2 : ℕ) : ZMod tk.GetN2) =
          ((w * u ^ (e s * (2 * tk.computeLambda s full)) :
            (ZMod tk.GetN2)ˣ) : ZMod tk.GetN2) := by
        rw [hx2def, cast_mul_mod, hw]
        rw [ZMod.natCast_val, ZMod.cast_id]
        rw [hsu, ← zpow_mul, Units.val_mul]
      obtain ⟨y, hy, hylt, hycast⟩ := ih
        (fun s2 hs2 => hdec s2 (List.mem_cons_of_mem s hs2)) x2 hx2lt
        (w * u ^ (e s * (2 * tk.computeLambda s full))) hx2cast
      refine ⟨y, ?_, hylt, ?_⟩
      · rw [List.foldl_cons]
        show rest.foldl
            (fun cp share => cp.bind
              (fun c => tk.updateCprime c (tk.computeLambda share full) share))
            (tk.updateCprime x (tk.computeLambda s full) s) = some y
        rw [hstep]
        exact hy
      · rw [hycast, List.map_cons, List.sum_cons, mul_assoc, ← zpow_add]

/-- Integer value of the hiding polynomial: `f(x) = Σⱼ f[j]·xʲ`. -/
def polyEvalZ (coeffs : List ℕ) (x : ℤ) : ℤ :=
  ∑ j ∈ Finset.range coeffs.length, (coeffs.getD j 0 : ℤ) * x ^ j

/-- Lagrange interpolation at zero, in exact integer form: if for every node
`i ∈ S` the integer `lam i` satisfies the scaled Lagrange-coefficient
identity, and `S` has at least `deg f + 1` nodes, then
`Σᵢ lam i · f(i) = l! · f[0]`. -/
theorem lagrange_sum_eq (lU : ℕ) (coeffs : List ℕ) (hw1 : 1 ≤ coeffs.length)
    (S : Finset ℤ) (hcard : coeffs.length ≤ S.card) (lam : ℤ → ℤ)
    (hlam : ∀ i ∈ S, lam i * (∏ j ∈ S.erase i, (i - j)) =
      (Nat.factorial lU : ℤ) * (∏ j ∈ S.erase i, (-j))) :
    ∑ i ∈ S, lam i * polyEvalZ coeffs i =
      (Nat.factorial lU : ℤ) * (coeffs.getD 0 0 : ℤ) := by
  classical
  set F : Polynomial ℚ := ∑ j ∈ Finset.range coeffs.length,
    Polynomial.C ((coeffs.getD j 0 : ℚ)) * Polynomial.X ^ j with hFdef
  have hdeg : F.degree < (S.card : ℕ) := by
    apply lt_of_le_of_lt (Polynomial.degree_sum_le _ _)
    rw [Finset.sup_lt_iff (by
      exact WithBot.bot_lt_coe _)]
    intro j hj
    apply lt_of_le_of_lt (Polynomial.degree_C_mul_X_pow_le _ _)
    have hjlt : j < coeffs.length := Finset.mem_range.mp hj
    exact_mod_cast Nat.lt_of_lt_of_le hjlt hcard
  have hinj : Set.InjOn (fun i : ℤ => (i : ℚ)) S := by
    intro a _ b _ h
    have h2 : (a : ℚ) = (b : ℚ) := h
    exact_mod_cast h2
  have hint := Lagrange.eq_interpolate hinj hdeg
  have heval0 : F.eval 0 = ∑ i ∈ S, F.eval (i : ℚ) *
      (Lagrange.basis S (fun i : ℤ => (i : ℚ)) i).eval 0 := by
    conv_lhs => rw [hint]
    rw [Lagrange.interpolate_apply, Polynomial.eval_finset_sum]
    exact Finset.sum_congr rfl (fun i _ => by
      rw [Polynomial.eval_mul, Polynomial.eval_C])
  have hbasis0 : ∀ i ∈ S, (Lagrange.basis S (fun i : ℤ => (i : ℚ)) i).eval 0 =
      (∏ j ∈ S.erase i, (-(j : ℚ))) * (∏ j ∈ S.erase i, ((i : ℚ) - (j : ℚ)))⁻¹ := by
    intro i _
    rw [Lagrange.basis, Polynomial.eval_prod]
    have hterm : ∀ j ∈ S.erase i,
        (Lagrange.basisDivisor ((i : ℚ)) ((j : ℚ))).eval 0 =
          ((i : ℚ) - (j : ℚ))⁻¹ * (-(j : ℚ)) := by
      intro j _
      rw [Lagrange.basisDivisor, Polynomial.eval_mul, Polynomial.eval_C,
        Polynomial.eval_sub, Polynomial.eval_X, Polynomial.eval_C]
      ring_nf
    rw [Finset.prod_congr rfl hterm, Finset.prod_mul_distrib,
      ← Finset.prod_inv_distrib]
    exact mul_comm _ _
  have hlamq : ∀ i ∈ S, (lam i : ℚ) =
      (Nat.factorial lU : ℚ) * (Lagrange.basis S (fun i : ℤ => (i : ℚ)) i).eval 0 := by
    intro i hi
    have hcastD : ((∏ j ∈ S.erase i, (i - j) : ℤ) : ℚ)
        = ∏ j ∈ S.erase i, ((i : ℚ) - (j : ℚ)) := by
      push_cast
      rfl
    have hcastN : ((∏ j ∈ S.erase i, (-j) : ℤ) : ℚ)
        = ∏ j ∈ S.erase i, (-(j : ℚ)) := by
      push_cast
      rfl
    have hD : (∏ j ∈ S.erase i, ((i : ℚ) - (j : ℚ))) ≠ 0 := by
      rw [← hcastD, Int.cast_ne_zero]
      apply Finset.prod_ne_zero_iff.mpr
      intro j hj
      have hji := (Finset.mem_erase.mp hj).1
      omega
    have hq : (lam i : ℚ) * (∏ j ∈ S.erase i, ((i : ℚ) - (j : ℚ)))
        = (Nat.factorial lU : ℚ) * (∏ j ∈ S.erase i, (-(j : ℚ))) := by
      rw [← hcastD, ← hcastN]
      exact_mod_cast congrArg (fun t : ℤ => (t : ℚ)) (hlam i hi)
    rw [hbasis0 i hi]
    have hstep : (lam i : ℚ) * (∏ j ∈ S.erase i, ((i : ℚ) - (j : ℚ)))
          * (∏ j ∈ S.erase i, ((i : ℚ) - (j : ℚ)))⁻¹
        = (Nat.factorial lU : ℚ) * (∏ j ∈ S.erase i, (-(j : ℚ)))
          * (∏ j ∈ S.erase i, ((i : ℚ) - (j : ℚ)))⁻¹ := by
      rw [hq]
    rwa [mul_assoc, mul_inv_cancel₀ hD, mul_one, mul_assoc] at hstep
  have hF0 : F.eval 0 = ((coeffs.getD 0 0 : ℤ) : ℚ) := by
    rw [hFdef, Polynomial.eval_finset_sum]
    rw [Finset.sum_eq_single 0]
    · simp
    · intro j _ hj0
      simp [Polynomial.eval_mul, zero_pow hj0]
    · intro h0
      exact absurd (Finset.mem_range.mpr (by omega)) h0
  have hFi : ∀ i : ℤ, F.eval (i : ℚ) = ((polyEvalZ coeffs i : ℤ) : ℚ) := by
    intro i
    rw [hFdef, Polynomial.eval_finset_sum, polyEvalZ]
    push_cast
    exact Finset.sum_congr rfl (fun j _ => by
      rw [Polynomial.eval_mul, Polynomial.eval_C, Polynomial.eval_pow,
        Polynomial.eval_X])
  have hmain : ((∑ i ∈ S, lam i * polyEvalZ coeffs i : ℤ) : ℚ) =
      (((Nat.factorial lU : ℤ) * (coeffs.getD 0 0 : ℤ) : ℤ) : ℚ) := by
    push_cast
    calc ∑ i ∈ S, (lam i : ℚ) * ((polyEvalZ coeffs i : ℤ) : ℚ)
        = ∑ i ∈ S, ((Nat.factorial lU : ℚ) *
            (Lagrange.basis S (fun i : ℤ => (i : ℚ)) i).eval 0) * F.eval (i : ℚ) := by
          refine Finset.sum_congr rfl (fun i hi => ?_)
          rw [hlamq i hi, hFi i]
      _ = (Nat.factorial lU : ℚ) * ∑ i ∈ S, F.eval (i : ℚ) *
            (Lagrange.basis S (fun i : ℤ => (i : ℚ)) i).eval 0 := by
          rw [Finset.mul_sum]
          exact Finset.sum_congr rfl (fun i _ => by ring)
      _ = (Nat.factorial lU : ℚ) * F.eval 0 := by rw [← heval0]
      _ = (Nat.factorial lU : ℚ) * ((coeffs.getD 0 0 : ℤ) : ℚ) := by rw [hF0]
      _ = _ := by push_cast; ring
  exact_mod_cast hmain

theorem createPrivateKeys_getD (g : GeneratorState) (i : ℕ) (hi : i < g.l) :
    (g.createPrivateKeys).getD i default =
      g.createSecretKey i (g.computeShare i)
        (g.createVerificationKeys g.createShares) := by
  rw [GeneratorState.createPrivateKeys, List.getD, List.get?_eq_getElem?,
    List.getElem?_map, List.getElem?_range hi]
  rfl

theorem computeLambda_congr_ID (tk : ThresholdPublicKey)
    (share share2 : PartialDecryption) (h : share.ID = share2.ID)
    (shares : List PartialDecryption) :
    tk.computeLambda share shares = tk.computeLambda share2 shares := by
  rw [ThresholdPublicKey.computeLambda, ThresholdPublicKey.computeLambda]
  rw [show (fun (lambda : ℤ) (s2 : PartialDecryption) =>
      if s2.ID ≠ share.ID then tk.updateLambda share s2 lambda else lambda) =
    (fun (lambda : ℤ) (s2 : PartialDecryption) =>
      if s2.ID ≠ share2.ID then tk.updateLambda share2 s2 lambda else lambda) from ?_]
  funext lambda s2
  rw [ThresholdPublicKey.updateLambda, ThresholdPublicKey.updateLambda, h]

theorem map_filter_id_comm (l : List PartialDecryption) (iz : ℤ) :
    (l.filter (fun s => s.ID ≠ iz)).map (fun s => s.ID) =
      (l.map (fun s => s.ID)).filter (fun x => x ≠ iz) := by
  induction l with
  | nil => rfl
  | cons s rest ih =>
      by_cases hs : s.ID ≠ iz
      · rw [List.filter_cons_of_pos (by simpa using hs), List.map_cons,
          List.map_cons, List.filter_cons_of_pos (by simpa using hs), ih]
      · rw [List.filter_cons_of_neg (by simpa using hs), List.map_cons,
          List.filter_cons_of_neg (by simpa using hs), ih]

/-- The secret share is the hiding polynomial's value modulo `nm`. -/
theorem computeShare_modEq (g : GeneratorState) (i : ℕ) (hi : 1 ≤ i) :
    ((g.computeShare (i - 1) : ℕ) : ℤ) ≡ polyEvalZ g.coeffs (i : ℤ)
      [ZMOD ((g.nm : ℕ) : ℤ)] := by
  rw [GeneratorState.computeShare, enum_foldl_eq_sum]
  have hi1 : i - 1 + 1 = i := by omega
  rw [hi1]
  have hcast : ((((∑ j ∈ Finset.range g.coeffs.length,
      g.coeffs.getD j 0 * i ^ j) : ℕ) : ℤ)) = polyEvalZ g.coeffs (i : ℤ) := by
    rw [polyEvalZ]
    push_cast
    rfl
  calc (((∑ j ∈ Finset.range g.coeffs.length,
      g.coeffs.getD j 0 * i ^ j) % g.nm : ℕ) : ℤ)
      ≡ (((∑ j ∈ Finset.range g.coeffs.length,
        g.coeffs.getD j 0 * i ^ j) : ℕ) : ℤ) [ZMOD ((g.nm : ℕ) : ℤ)] := by
        rw [Int.ofNat_emod]
        exact Int.emod_emod_of_dvd _ dvd_rfl
    _ = polyEvalZ g.coeffs (i : ℤ) := hcast

/-! ## Claim C1 (amended): threshold decryption round-trip -/

/-- C1 as amended: for every threshold key set produced by the generator
(safe primes behind `n` and `m`, CRT constant `d`, hiding polynomial with
constant coefficient `d`, `1 ≤ w`), every plaintext `m < N` and randomness
`r` coprime to `N`, and every subset of at least `w` of the `l` secret keys,
`CombinePartialDecryptions` applied to their partial decryptions of
`Encrypt(m)` returns exactly `m` — **provided** `4Δ²` is coprime to `N`
(which the generator does not enforce and which fails when `l` reaches the
primes; see the counterexample). -/
theorem c1_amended_threshold_roundtrip
    (p p1 q q1 : ℕ) (hp : Nat.Prime p) (hp1 : Nat.Prime p1)
    (hq : Nat.Prime q) (hq1 : Nat.Prime q1)
    (hpf : p = 2 * p1 + 1) (hqf : q = 2 * q1 + 1)
    (hpq : p ≠ q) (hpq1 : p ≠ q1) (hp1q : p1 ≠ q)
    (g : GeneratorState) (hgn : g.n = p * q) (hgm : g.m = p1 * q1)
    (hd : initD g.n g.m = some (g.coeffs.getD 0 0))
    (hlenc : g.coeffs.length = g.w) (hw1 : 1 ≤ g.w)
    (hcsc : Nat.Coprime (4 * (Factorial g.l * Factorial g.l)) g.n)
    (msg r : ℕ) (hmsg : msg < g.n) (hr : Nat.Coprime r g.n)
    (ids : List ℕ) (hidnodup : ids.Nodup)
    (hidrange : ∀ i ∈ ids, 1 ≤ i ∧ i ≤ g.l) (hidlen : g.w ≤ ids.length) :
    ThresholdPublicKey.CombinePartialDecryptions
        ⟨g.n, g.l, g.w, g.v, g.createVerificationKeys g.createShares⟩
        (ids.map (fun i => ((g.createPrivateKeys).getD (i - 1) default).PartialDecrypt
          (EncryptWithR g.n msg r))) = .ok (some msg) ∧
      ∀ key ∈ g.createPrivateKeys, key.toThresholdPublicKey =
        ⟨g.n, g.l, g.w, g.v, g.createVerificationKeys g.createShares⟩ := by
  set tk : ThresholdPublicKey :=
    ⟨g.n, g.l, g.w, g.v, g.createVerificationKeys g.createShares⟩ with htkdef
  set c : ℕ := EncryptWithR g.n msg r with hcdef
  set pds : List PartialDecryption :=
    ids.map (fun i => ((g.createPrivateKeys).getD (i - 1) default).PartialDecrypt c)
    with hpdsdef
  -- basic numeric facts
  have hp2 : 2 ≤ p := hp.two_le
  have hq2 : 2 ≤ q := hq.two_le
  have hn2 : 2 ≤ g.n := by
    rw [hgn]
    have := Nat.mul_le_mul hp2 hq2
    omega
  have hn1 : 1 < g.n := hn2
  have hM : 1 < tk.GetN2 := by
    show 1 < g.n * g.n
    have := Nat.mul_le_mul hn2 hn2
    omega
  haveI : NeZero tk.GetN2 := ⟨by omega⟩
  -- the CRT constant
  set d : ℕ := g.coeffs.getD 0 0 with hddef
  obtain ⟨z, hmi, hdz⟩ : ∃ z, modInverse g.m g.n = some z ∧ z * g.m = d := by
    rcases hmi : modInverse g.m g.n with _ | z
    · rw [initD, hmi] at hd
      exact absurd hd (by simp)
    · rw [initD, hmi] at hd
      exact ⟨z, rfl, by simpa using hd⟩
  obtain ⟨hzlt, hz1⟩ := modInverse_spec hmi
  have hd1 : d ≡ 1 [MOD g.n] := by
    show d % g.n = 1 % g.n
    rw [← hdz, Nat.mul_comm]
    exact hz1
  -- units modulo n²
  have hrM : Nat.Coprime r (g.n * g.n) := hr.mul_right hr
  have hrunit : IsUnit ((r : ℕ) : ZMod tk.GetN2) :=
    (ZMod.isUnit_iff_coprime r tk.GetN2).mpr hrM
  have hnbar : ((g.n : ℕ) : ZMod tk.GetN2) * ((g.n : ℕ) : ZMod tk.GetN2) = 0 := by
    rw [← Nat.cast_mul]
    exact ZMod.natCast_self tk.GetN2
  have hgplus : ((g.n + 1 : ℕ) : ZMod tk.GetN2) =
      1 + ((g.n : ℕ) : ZMod tk.GetN2) := by
    push_cast
    ring
  have hgunit : IsUnit ((g.n + 1 : ℕ) : ZMod tk.GetN2) := by
    apply isUnit_of_mul_eq_one _ (1 - ((g.n : ℕ) : ZMod tk.GetN2))
    rw [hgplus]
    linear_combination -hnbar
  have hcval : c = r ^ g.n % tk.GetN2 * ((g.n + 1) ^ msg % tk.GetN2) % tk.GetN2 := rfl
  have hccast : ((c : ℕ) : ZMod tk.GetN2) =
      ((r : ℕ) : ZMod tk.GetN2) ^ g.n * ((g.n + 1 : ℕ) : ZMod tk.GetN2) ^ msg := by
    rw [hcval, cast_mul_mod, cast_pow_mod, cast_pow_mod]
  have hcunit : IsUnit ((c : ℕ) : ZMod tk.GetN2) := by
    rw [hccast]
    exact (hrunit.pow g.n).mul (hgunit.pow msg)
  set u : (ZMod tk.GetN2)ˣ := hcunit.unit with hudef
  -- shape of the partial decryptions
  have hpds_elem : ∀ i ∈ ids,
      ((g.createPrivateKeys).getD (i - 1) default).PartialDecrypt c =
        ⟨(i : ℤ), c ^ (g.computeShare (i - 1) * (2 * Factorial g.l)) % tk.GetN2⟩ := by
    intro i hi
    have hi1 := (hidrange i hi).1
    have hil := (hidrange i hi).2
    rw [createPrivateKeys_getD g (i - 1) (by omega)]
    show (⟨((i - 1 : ℕ) : ℤ) + 1, _⟩ : PartialDecryption) = _
    have hid : ((i - 1 : ℕ) : ℤ) + 1 = (i : ℤ) := by omega
    rw [hid]
    rfl
  have hpds_ids : pds.map (fun s => s.ID) = ids.map (fun i : ℕ => (i : ℤ)) := by
    rw [hpdsdef, List.map_map]
    apply List.map_congr_left
    intro i hi
    show (((g.createPrivateKeys).getD (i - 1) default).PartialDecrypt c).ID = (i : ℤ)
    rw [hpds_elem i hi]
  have hpdsnodup : (pds.map (fun s => s.ID)).Nodup := by
    rw [hpds_ids]
    exact hidnodup.map (fun a b h => by exact_mod_cast h)
  have hpdslen : pds.length = ids.length := by
    rw [hpdsdef, List.length_map]
  have hpdsrange : ∀ s ∈ pds, 1 ≤ s.ID ∧
      s.ID ≤ (tk.TotalNumberOfDecryptionServers : ℤ) := by
    intro s hs
    rw [hpdsdef] at hs
    obtain ⟨i, hi, rfl⟩ := List.mem_map.mp hs
    rw [hpds_elem i hi]
    have h1 := (hidrange i hi).1
    have h2 := (hidrange i hi).2
    constructor
    · show (1 : ℤ) ≤ (i : ℤ)
      exact_mod_cast h1
    · show (i : ℤ) ≤ (g.l : ℤ)
      exact_mod_cast h2
  have hverify : tk.verifyPartialDecryptions pds = none := by
    rw [ThresholdPublicKey.verifyPartialDecryptions,
      if_neg (by
        show ¬ pds.length < tk.Threshold
        rw [hpdslen]
        show ¬ ids.length < g.w
        omega),
      if_neg (by
        rw [List.dedup_eq_self.mpr hpdsnodup, List.length_map]
        omega)]
  -- decryption shares as powers of the ciphertext unit
  set eexp : PartialDecryption → ℤ := fun s =>
    ((g.computeShare (s.ID.toNat - 1) * (2 * Factorial g.l) : ℕ) : ℤ) with heexpdef
  have hdec : ∀ s ∈ pds, ((s.Decryption : ℕ) : ZMod tk.GetN2) =
      ((u ^ eexp s : (ZMod tk.GetN2)ˣ) : ZMod tk.GetN2) := by
    intro s hs
    rw [hpdsdef] at hs
    obtain ⟨i, hi, rfl⟩ := List.mem_map.mp hs
    rw [hpds_elem i hi]
    show ((c ^ (g.computeShare (i - 1) * (2 * Factorial g.l)) % tk.GetN2 : ℕ) :
      ZMod tk.GetN2) = _
    have hiz : (((i : ℤ)).toNat - 1 : ℕ) = i - 1 := by
      simp
    have heexps : eexp ⟨(i : ℤ),
        c ^ (g.computeShare (i - 1) * (2 * Factorial g.l)) % tk.GetN2⟩ =
        ((g.computeShare (i - 1) * (2 * Factorial g.l) : ℕ) : ℤ) := by
      rw [heexpdef]
      show ((g.computeShare (((i : ℤ)).toNat - 1) * (2 * Factorial g.l) : ℕ) : ℤ) = _
      rw [hiz]
    rw [heexps, zpow_natCast, cast_pow_mod]
    rw [← hcunit.unit_spec, ← Units.val_pow_eq_pow_val]
  -- run the fold
  obtain ⟨y, hfold, hylt, hycast⟩ := combine_fold_spec tk pds hM u eexp pds hdec
    1 hM 1 (by simp)
  rw [one_mul] at hycast
  -- the Lagrange node set
  set idsZ : List ℤ := ids.map (fun i : ℕ => (i : ℤ)) with hidsZdef
  have hidsZnodup : idsZ.Nodup := hidnodup.map (fun a b h => by exact_mod_cast h)
  set S : Finset ℤ := idsZ.toFinset with hSdef
  have hScard : S.card = ids.length := by
    rw [hSdef, List.toFinset_card_of_nodup hidsZnodup, hidsZdef, List.length_map]
  have hSmem : ∀ iz ∈ S, ∃ i ∈ ids, iz = (i : ℤ) := by
    intro iz hiz
    rw [hSdef, List.mem_toFinset, hidsZdef] at hiz
    obtain ⟨i, hi, rfl⟩ := List.mem_map.mp hiz
    exact ⟨i, hi, rfl⟩
  set lamF : ℤ → ℤ := fun iz => tk.computeLambda ⟨iz, 0⟩ pds with hlamFdef
  set eF : ℤ → ℤ := fun iz =>
    ((g.computeShare (iz.toNat - 1) * (2 * Factorial g.l) : ℕ) : ℤ) with heFdef
  have hEsum : (pds.map (fun s => eexp s * (2 * tk.computeLambda s pds))).sum
      = ∑ iz ∈ S, eF iz * (2 * lamF iz) := by
    have hstep1 : pds.map (fun s => eexp s * (2 * tk.computeLambda s pds))
        = pds.map (fun s => eF s.ID * (2 * lamF s.ID)) := by
      apply List.map_congr_left
      intro s _
      have hlam : tk.computeLambda s pds = lamF s.ID :=
        computeLambda_congr_ID tk s ⟨s.ID, 0⟩ rfl pds
      rw [hlam]
    have hstep2 : pds.map (fun s => eF s.ID * (2 * lamF s.ID))
        = (pds.map (fun s => s.ID)).map (fun iz => eF iz * (2 * lamF iz)) :=
      (List.map_map (fun iz => eF iz * (2 * lamF iz))
        (fun s : PartialDecryption => s.ID) pds).symm
    rw [hstep1, hstep2, hpds_ids]
    rw [← List.sum_toFinset _ hidsZnodup]
  have hzbound : ∀ iz ∈ S, 1 ≤ iz ∧ iz ≤ (g.l : ℤ) := by
    intro iz hiz
    obtain ⟨i, hi, rfl⟩ := hSmem iz hiz
    constructor
    · exact_mod_cast (hidrange i hi).1
    · exact_mod_cast (hidrange i hi).2
  have hLi : ∀ iz : ℤ, ((pds.filter (fun s => s.ID ≠ iz)).map (fun s => s.ID))
      = idsZ.filter (fun x => x ≠ iz) := by
    intro iz
    rw [map_filter_id_comm, hpds_ids]
  have hLifinset : ∀ iz : ℤ,
      (idsZ.filter (fun x => x ≠ iz)).toFinset = S.erase iz := by
    intro iz
    ext x
    simp only [List.mem_toFinset, List.mem_filter, Finset.mem_erase, hSdef,
      decide_eq_true_eq]
    tauto
  have hdeltaZ : ((tk.delta : ℕ) : ℤ) = (Nat.factorial g.l : ℤ) := by
    show ((Factorial g.l : ℕ) : ℤ) = _
    rw [Factorial_eq_factorial]
  have hlamid : ∀ iz ∈ S, lamF iz * (∏ j ∈ S.erase iz, (iz - j)) =
      (Nat.factorial g.l : ℤ) * (∏ j ∈ S.erase iz, (-j)) := by
    intro iz hiz
    obtain ⟨hb1, hb2⟩ := hzbound iz hiz
    obtain ⟨_, hfoldid⟩ := computeLambda_spec tk ⟨iz, 0⟩ pds hpdsrange hpdsnodup hb1 hb2
    rw [show (⟨iz, (0 : ℕ)⟩ : PartialDecryption).ID = iz from rfl] at hfoldid
    have hnodupLi : ((pds.filter (fun s => s.ID ≠ iz)).map (fun s => s.ID)).Nodup := by
      rw [hLi iz]
      exact hidsZnodup.filter _
    have hD : ((((pds.filter (fun s => s.ID ≠ iz)).map (fun s => s.ID)).map
          (fun j => iz - j)).prod) = ∏ j ∈ S.erase iz, (iz - j) := by
      rw [← List.prod_toFinset _ hnodupLi, hLi iz, hLifinset iz]
    have hN : ((((pds.filter (fun s => s.ID ≠ iz)).map (fun s => s.ID)).map
          (fun j => -j)).prod) = ∏ j ∈ S.erase iz, (-j) := by
      rw [← List.prod_toFinset _ hnodupLi, hLi iz, hLifinset iz]
    rw [hD, hN, hdeltaZ] at hfoldid
    exact hfoldid
  have hlag := lagrange_sum_eq g.l g.coeffs (by omega) S
    (by rw [hScard]; omega) lamF hlamid
  set E : ℕ := 2 * (g.n * g.m) with hEdef
  have hterm : ∀ iz ∈ S, ((E : ℕ) : ℤ) ∣ (eF iz * (2 * lamF iz) -
      4 * (Nat.factorial g.l : ℤ) * (lamF iz * polyEvalZ g.coeffs iz)) := by
    intro iz hiz
    obtain ⟨i, hi, rfl⟩ := hSmem iz hiz
    have hi1 := (hidrange i hi).1
    have hshare := computeShare_modEq g i hi1
    have hdvd0 : ((g.nm : ℕ) : ℤ) ∣ (polyEvalZ g.coeffs (i : ℤ) -
        ((g.computeShare (i - 1) : ℕ) : ℤ)) := Int.ModEq.dvd hshare
    obtain ⟨t, ht⟩ := hdvd0
    rw [show ((g.nm : ℕ) : ℤ) = ((g.n : ℕ) : ℤ) * ((g.m : ℕ) : ℤ) from by
      show (((g.n * g.m : ℕ)) : ℤ) = _
      push_cast
      ring] at ht
    have heFi : eF (i : ℤ) = ((g.computeShare (i - 1) : ℕ) : ℤ) *
        (2 * (Nat.factorial g.l : ℤ)) := by
      show ((g.computeShare (((i : ℤ)).toNat - 1) * (2 * Factorial g.l) : ℕ) : ℤ) = _
      rw [show ((i : ℤ)).toNat - 1 = i - 1 from by simp]
      push_cast [Factorial_eq_factorial]
      ring
    rw [heFi]
    refine ⟨-(2 * (Nat.factorial g.l : ℤ) * lamF (i : ℤ) * t), ?_⟩
    rw [hEdef]
    push_cast
    linear_combination (-(4 : ℤ) * (Nat.factorial g.l : ℤ) * lamF (i : ℤ)) * ht
  set KT : ℕ := 4 * (Factorial g.l * Factorial g.l) * d with hKTdef
  have hcong : ((pds.map (fun s => eexp s * (2 * tk.computeLambda s pds))).sum)
      ≡ ((KT : ℕ) : ℤ) [ZMOD ((E : ℕ) : ℤ)] := by
    rw [hEsum]
    have hsum_dvd : ((E : ℕ) : ℤ) ∣ (∑ iz ∈ S, (eF iz * (2 * lamF iz) -
        4 * (Nat.factorial g.l : ℤ) * (lamF iz * polyEvalZ g.coeffs iz))) :=
      Finset.dvd_sum hterm
    rw [Finset.sum_sub_distrib] at hsum_dvd
    have hKTsum : (∑ iz ∈ S, 4 * (Nat.factorial g.l : ℤ) *
        (lamF iz * polyEvalZ g.coeffs iz)) = ((KT : ℕ) : ℤ) := by
      rw [← Finset.mul_sum, hlag, hKTdef]
      push_cast [Factorial_eq_factorial]
      ring
    rw [hKTsum] at hsum_dvd
    apply Int.modEq_iff_dvd.mpr
    rw [← neg_sub]
    exact dvd_neg.mpr hsum_dvd
  have hcopM : Nat.Coprime c (g.n * g.n) :=
    (ZMod.isUnit_iff_coprime c tk.GetN2).mp hcunit
  have hcE : c ^ E ≡ 1 [MOD g.n * g.n] := by
    rw [hEdef, hgn, hgm]
    apply units_pow_exponent hp hq hpf hqf hpq
    rw [← hgn]
    exact hcopM
  have hUE : u ^ E = 1 := by
    apply Units.ext
    rw [Units.val_pow_eq_pow_val, hcunit.unit_spec, Units.val_one, ← Nat.cast_pow]
    have hcast := (ZMod.natCast_eq_natCast_iff (c ^ E) 1 tk.GetN2).mpr hcE
    rw [hcast, Nat.cast_one]
  have hupow : u ^ ((pds.map (fun s => eexp s * (2 * tk.computeLambda s pds))).sum)
      = u ^ KT := by
    have h1 := units_zpow_congr u E hUE _ ((KT : ℕ) : ℤ) hcong
    rw [h1, zpow_natCast]
  have hrE : ((r : ℕ) : ZMod tk.GetN2) ^ E = 1 := by
    have hrEnat : r ^ E ≡ 1 [MOD g.n * g.n] := by
      rw [hEdef, hgn, hgm]
      apply units_pow_exponent hp hq hpf hqf hpq
      rw [← hgn]
      exact hrM
    rw [← Nat.cast_pow]
    have hcast := (ZMod.natCast_eq_natCast_iff (r ^ E) 1 tk.GetN2).mpr hrEnat
    rw [hcast, Nat.cast_one]
  have hr_kill : ((r : ℕ) : ZMod tk.GetN2) ^ (g.n * KT) = 1 := by
    have harith : g.n * KT = E * (2 * (Factorial g.l * Factorial g.l) * z) := by
      rw [hKTdef, hEdef, ← hdz]
      ring
    rw [harith, pow_mul, hrE, one_pow]
  have hgpow : ((g.n + 1 : ℕ) : ZMod tk.GetN2) ^ (msg * KT) =
      1 + ((msg * KT : ℕ) : ZMod tk.GetN2) * ((g.n : ℕ) : ZMod tk.GetN2) := by
    rw [hgplus]
    exact one_add_nilpotent_pow _ hnbar (msg * KT)
  have hcKT : ((c : ℕ) : ZMod tk.GetN2) ^ KT =
      1 + ((msg * KT : ℕ) : ZMod tk.GetN2) * ((g.n : ℕ) : ZMod tk.GetN2) := by
    rw [hccast, mul_pow, ← pow_mul, ← pow_mul, hr_kill, one_mul, hgpow]
  have hyclass : ((y : ℕ) : ZMod tk.GetN2) =
      1 + ((msg * KT : ℕ) : ZMod tk.GetN2) * ((g.n : ℕ) : ZMod tk.GetN2) := by
    rw [hycast, hupow, ← hcKT, Units.val_pow_eq_pow_val, hcunit.unit_spec]
  set KN : ℕ := msg * KT % g.n with hKNdef
  have hKNlt : KN < g.n := Nat.mod_lt _ (by omega)
  have hyval : y = 1 + KN * g.n := by
    apply eq_of_cast_eq_of_lt (show 0 < tk.GetN2 from by omega) hylt
    · have h5 : KN + 1 ≤ g.n := hKNlt
      have h6 : (KN + 1) * g.n ≤ g.n * g.n := Nat.mul_le_mul_right _ h5
      have h7 : (KN + 1) * g.n = KN * g.n + g.n := by ring
      show 1 + KN * g.n < g.n * g.n
      omega
    · rw [hyclass]
      have hsplit : msg * KT = g.n * (msg * KT / g.n) + KN := by
        rw [hKNdef]
        exact (Nat.div_add_mod _ _).symm
      calc (1 : ZMod tk.GetN2) +
            ((msg * KT : ℕ) : ZMod tk.GetN2) * ((g.n : ℕ) : ZMod tk.GetN2)
          = 1 + (((g.n * (msg * KT / g.n) + KN : ℕ)) : ZMod tk.GetN2) *
              ((g.n : ℕ) : ZMod tk.GetN2) := by rw [← hsplit]
        _ = ((1 + KN * g.n : ℕ) : ZMod tk.GetN2) := by
              push_cast
              linear_combination
                (((msg * KT / g.n : ℕ) : ZMod tk.GetN2)) * hnbar
  obtain ⟨csc, hcscsome, hcsc1⟩ :=
    modInverse_isSome_of_coprime (show 0 < g.n from by omega) hcsc
  have hfinalmod : csc * KN % g.n = msg := by
    have hKNcong : KN ≡ msg * KT [MOD g.n] := Nat.mod_modEq _ _
    have h1 : csc * KN ≡ csc * (msg * KT) [MOD g.n] := hKNcong.mul_left csc
    have h2 : csc * (msg * KT) = (4 * (Factorial g.l * Factorial g.l) * csc) *
        (msg * d) := by
      rw [hKTdef]
      ring
    have h3 : (4 * (Factorial g.l * Factorial g.l) * csc) * (msg * d) ≡
        1 * (msg * d) [MOD g.n] :=
      Nat.ModEq.mul_right _ (show 4 * (Factorial g.l * Factorial g.l) * csc ≡ 1
        [MOD g.n] from hcsc1)
    have h4 : msg * d ≡ msg * 1 [MOD g.n] := hd1.mul_left msg
    have hchain : csc * KN ≡ msg [MOD g.n] := by
      calc csc * KN ≡ csc * (msg * KT) [MOD g.n] := h1
        _ = (4 * (Factorial g.l * Factorial g.l) * csc) * (msg * d) := h2
        _ ≡ 1 * (msg * d) [MOD g.n] := h3
        _ = msg * d := by ring
        _ ≡ msg * 1 [MOD g.n] := h4
        _ = msg := by ring
    have := hchain
    show csc * KN % g.n = msg
    rw [this]
    exact Nat.mod_eq_of_lt hmsg
  refine ⟨?_, ?_⟩
  · show tk.CombinePartialDecryptions pds = .ok (some msg)
    rw [ThresholdPublicKey.CombinePartialDecryptions, hverify]
    show Except.ok ((pds.foldl
        (fun cp share => cp.bind
          (fun c2 => tk.updateCprime c2 (tk.computeLambda share pds) share))
        (some 1)).bind tk.computeDecryption) = _
    rw [hfold]
    show Except.ok (tk.computeDecryption y) = _
    have hcompDec : tk.computeDecryption y = some msg := by
      rw [ThresholdPublicKey.computeDecryption,
        show tk.combineSharesConstant = some csc from hcscsome]
      show some ((((csc : ℤ) * lFun ((y : ℕ) : ℤ) ((tk.N : ℕ) : ℤ)) %
        ((tk.N : ℕ) : ℤ)).toNat) = some msg
      congr 1
      rw [hyval]
      have hlfun : lFun ((1 + KN * g.n : ℕ) : ℤ) ((g.n : ℕ) : ℤ) = (KN : ℤ) := by
        rw [lFun]
        push_cast
        rw [add_sub_cancel_left]
        exact Int.mul_ediv_cancel _ (by exact_mod_cast (show g.n ≠ 0 from by omega))
      rw [show ((tk.N : ℕ) : ℤ) = ((g.n : ℕ) : ℤ) from rfl, hlfun]
      rw [show (csc : ℤ) * (KN : ℤ) = ((csc * KN : ℕ) : ℤ) from by push_cast; ring]
      rw [← Int.ofNat_emod, Int.toNat_natCast]
      exact hfinalmod
    rw [hcompDec]
  · intro key hkey
    rw [GeneratorState.createPrivateKeys] at hkey
    obtain ⟨i, _, rfl⟩ := List.mem_map.mp hkey
    rfl

theorem c1_amended_threshold_roundtrip_witness :
    ThresholdPublicKey.CombinePartialDecryptions
        ⟨35, 2, 1, 4,
          (⟨35, 6, 4, 2, 1, [36]⟩ : GeneratorState).createVerificationKeys
            (⟨35, 6, 4, 2, 1, [36]⟩ : GeneratorState).createShares⟩
        ([1].map (fun i =>
          (((⟨35, 6, 4, 2, 1, [36]⟩ : GeneratorState).createPrivateKeys).getD (i - 1)
            default).PartialDecrypt (EncryptWithR 35 3 2))) = .ok (some 3) ∧
      ∀ key ∈ (⟨35, 6, 4, 2, 1, [36]⟩ : GeneratorState).createPrivateKeys,
        key.toThresholdPublicKey = ⟨35, 2, 1, 4,
          (⟨35, 6, 4, 2, 1, [36]⟩ : GeneratorState).createVerificationKeys
            (⟨35, 6, 4, 2, 1, [36]⟩ : GeneratorState).createShares⟩ :=
  c1_amended_threshold_roundtrip 5 2 7 3 (by norm_num) (by norm_num) (by norm_num)
    (by norm_num) (by norm_num) (by norm_num) (by norm_num) (by norm_num)
    (by norm_num) ⟨35, 6, 4, 2, 1, [36]⟩ rfl (by norm_num) (by decide) rfl
    (by norm_num) (by decide) 3 2 (by norm_num) (by decide) [1] (by decide)
    (by decide) (by norm_num)

/-- C1, counterexample to the unamended round-trip sentence: the generator
accepts the safe primes `p = 383 = 2·191 + 1` and `q = 467 = 2·233 + 1`
together with `l = 400` decryption servers (nothing in the code requires
`l < p`), but then `p = 383` divides `Δ = l!`, so `gcd(4Δ², n) ≠ 1`,
`combineSharesConstant`'s `ModInverse` fails, and combining a full share set
for the plaintext `1` yields `.ok none` instead of the plaintext. -/
theorem c1_threshold_roundtrip_counterexample :
    Nat.Prime 383 ∧ Nat.Prime 191 ∧ Nat.Prime 467 ∧ Nat.Prime 233 ∧
    383 = 2 * 191 + 1 ∧ 467 = 2 * 233 + 1 ∧
    (⟨178861, 44503, 1, 400, 1, [3722097411]⟩ : GeneratorState).n = 383 * 467 ∧
    (⟨178861, 44503, 1, 400, 1, [3722097411]⟩ : GeneratorState).m = 191 * 233 ∧
    initD 178861 44503 =
      some ((⟨178861, 44503, 1, 400, 1, [3722097411]⟩ :
        GeneratorState).coeffs.getD 0 0) ∧
    (1 : ℕ) < 178861 ∧ Nat.Coprime 1 178861 ∧
    ThresholdPublicKey.CombinePartialDecryptions
        ⟨178861, 400, 1, 1,
          (⟨178861, 44503, 1, 400, 1, [3722097411]⟩ :
            GeneratorState).createVerificationKeys
            (⟨178861, 44503, 1, 400, 1, [3722097411]⟩ :
              GeneratorState).createShares⟩
        ([1].map (fun i =>
          (((⟨178861, 44503, 1, 400, 1, [3722097411]⟩ :
            GeneratorState).createPrivateKeys).getD
            (i - 1) default).PartialDecrypt (EncryptWithR 178861 1 1)))
      = .ok none ∧
    (Except.ok (none : Option ℕ) : Except CombineError (Option ℕ)) ≠
      .ok (some 1) := by
  refine ⟨by norm_num, by norm_num, by norm_num, by norm_num, by norm_num,
    by norm_num, by norm_num, by norm_num, ?_, by norm_num,
    Nat.coprime_one_left _, ?_, by simp⟩
  · rw [initD, modInverse_eq_some (show 83637 < 178861 by norm_num)
      (show 44503 * 83637 % 178861 = 1 % 178861 by norm_num)]
    norm_num
  · rw [ThresholdPublicKey.CombinePartialDecryptions]
    have hcscnone : ThresholdPublicKey.combineSharesConstant
        ⟨178861, 400, 1, 1,
          (⟨178861, 44503, 1, 400, 1, [3722097411]⟩ :
            GeneratorState).createVerificationKeys
            (⟨178861, 44503, 1, 400, 1, [3722097411]⟩ :
              GeneratorState).createShares⟩ = none := by
      rw [ThresholdPublicKey.combineSharesConstant]
      have hdeq : ThresholdPublicKey.delta
          ⟨178861, 400, 1, 1,
            (⟨178861, 44503, 1, 400, 1, [3722097411]⟩ :
              GeneratorState).createVerificationKeys
              (⟨178861, 44503, 1, 400, 1, [3722097411]⟩ :
                GeneratorState).createShares⟩ = Factorial 400 := rfl
      have hNeq : ThresholdPublicKey.N
          ⟨178861, 400, 1, 1,
            (⟨178861, 44503, 1, 400, 1, [3722097411]⟩ :
              GeneratorState).createVerificationKeys
              (⟨178861, 44503, 1, 400, 1, [3722097411]⟩ :
                GeneratorState).createShares⟩ = 178861 := rfl
      rw [hdeq, hNeq]
      apply modInverse_eq_none.mpr
      intro z hz hmod
      have h383 : (383 : ℕ) ∣ Factorial 400 := by
        rw [Factorial_eq_factorial]
        exact Nat.dvd_factorial (by norm_num) (by norm_num)
      have h4 : (383 : ℕ) ∣ 4 * (Factorial 400 * Factorial 400) := by
        obtain ⟨k, hk⟩ := h383
        exact ⟨4 * (k * Factorial 400), by rw [hk]; ring⟩
      have hzdvd : (383 : ℕ) ∣ 4 * (Factorial 400 * Factorial 400) * z :=
        dvd_mul_of_dvd_left h4 z
      have hndvd : (383 : ℕ) ∣ 178861 := by norm_num
      have hdvdmod : (383 : ℕ) ∣
          (4 * (Factorial 400 * Factorial 400) * z % 178861) :=
        (Nat.dvd_mod_iff hndvd).mpr hzdvd
      rw [hmod] at hdvdmod
      norm_num at hdvdmod
    have hver : ThresholdPublicKey.verifyPartialDecryptions
        ⟨178861, 400, 1, 1,
          (⟨178861, 44503, 1, 400, 1, [3722097411]⟩ :
            GeneratorState).createVerificationKeys
            (⟨178861, 44503, 1, 400, 1, [3722097411]⟩ :
              GeneratorState).createShares⟩
        ([1].map (fun i =>
          (((⟨178861, 44503, 1, 400, 1, [3722097411]⟩ :
            GeneratorState).createPrivateKeys).getD
            (i - 1) default).PartialDecrypt (EncryptWithR 178861 1 1)))
        = none := by
      rw [ThresholdPublicKey.verifyPartialDecryptions]
      rw [if_neg (by simp), if_neg (by simp)]
    rw [hver]
    cases hfoldv : (([1].map (fun i =>
        (((⟨178861, 44503, 1, 400, 1, [3722097411]⟩ :
          GeneratorState).createPrivateKeys).getD
          (i - 1) default).PartialDecrypt (EncryptWithR 178861 1 1))).foldl
        (fun cp share => cp.bind (fun c =>
          ThresholdPublicKey.updateCprime
            ⟨178861, 400, 1, 1,
              (⟨178861, 44503, 1, 400, 1, [3722097411]⟩ :
                GeneratorState).createVerificationKeys
                (⟨178861, 44503, 1, 400, 1, [3722097411]⟩ :
                  GeneratorState).createShares⟩ c
            (ThresholdPublicKey.computeLambda
              ⟨178861, 400, 1, 1,
                (⟨178861, 44503, 1, 400, 1, [3722097411]⟩ :
                  GeneratorState).createVerificationKeys
                  (⟨178861, 44503, 1, 400, 1, [3722097411]⟩ :
                    GeneratorState).createShares⟩ share
              ([1].map (fun i =>
                (((⟨178861, 44503, 1, 400, 1, [3722097411]⟩ :
                  GeneratorState).createPrivateKeys).getD
                  (i - 1) default).PartialDecrypt (EncryptWithR 178861 1 1))))
            share))
        (some 1)) with
    | none => rfl
    | some y =>
        rw [Option.some_bind, ThresholdPublicKey.computeDecryption, hcscnone]
        rfl

end Paillier
